import Mathlib

/-!
Verification development for the `topology` repository (crate `topology-cpu`,
file `src/cpu/src/lib.rs`).  The Rust source is shallowly embedded: pure
parsing helpers become Lean functions on `List Char`, the sysfs filesystem
becomes an explicit environment record, `HashMap` becomes an association
list, fatal conditions (`unwrap` panics) become `Option` with `none`, and
machine-integer casts (`as u16`) become explicit `% 2 ^ 16`.
-/

set_option autoImplicit false

namespace CpuTopology

/-- Truncating cast to `u16`, i.e. Rust's `x as u16` on an unsigned value. -/
def u16 (n : Nat) : Nat := n % 65536

/-- Modelled from the spec: the opaque per-core identification record
(`cpuid::CpuInfo`, an external collaborator whose internals are out of scope);
only its identity matters here, so it wraps an abstract tag. -/
structure CpuInfo where
  tag : Nat
deriving DecidableEq, Repr

/-- Modelled from the spec: the external `cxtend::bit_map::BitMap`
collaborator — a fixed-capacity set of small integers supporting membership
test, set, and ordered iteration with present/absent flags.  Modelled as the
list of per-index flags; `with_capacity n` yields `n` cleared flags. -/
structure BitMap where
  flags : List Bool
deriving DecidableEq, Repr

/-- Modelled from the spec: `BitMap::with_capacity(n)` — `n` cleared flags. -/
def BitMap.with_capacity (n : Nat) : BitMap := ⟨List.replicate n false⟩

/-- Modelled from the spec: `BitMap::set(i)` marks index `i` present
(no effect outside the capacity). -/
def BitMap.set (b : BitMap) (i : Nat) : BitMap := ⟨b.flags.set i true⟩

/-- Membership test: the flag at index `i`, absent outside the capacity. -/
def BitMap.test (b : BitMap) (i : Nat) : Bool := b.flags.getD i false

/-- Number of indices marked present. -/
def BitMap.popcount (b : BitMap) : Nat := b.flags.count true

/-- `std::collections::HashMap<u16, V>` modelled as an association list with
distinct keys; the hash structure is irrelevant to the claims, only the
key-value mapping and the entry count. -/
abbrev HMap (V : Type) := List (Nat × V)

/-- `HashMap::get`. -/
def HMap.get {V : Type} : HMap V → Nat → Option V
  | [], _ => none
  | (k', v) :: rest, k => if k' = k then some v else HMap.get rest k

/-- `HashMap::insert`: replaces the entry when the key is present, otherwise
appends a fresh entry. -/
def HMap.insert {V : Type} : HMap V → Nat → V → HMap V
  | [], k, v => [(k, v)]
  | (k', v') :: rest, k, v =>
    if k' = k then (k, v) :: rest else (k', v') :: HMap.insert rest k v

/-- `HashMap::entry(k).or_insert(v)` (the map part: inserts `v` at `k` only
when `k` is absent).  Note the caller evaluates `v` eagerly, as Rust does. -/
def HMap.orInsert {V : Type} (m : HMap V) (k : Nat) (v : V) : HMap V :=
  match m.get k with
  | some _ => m
  | none => m.insert k v

/-- Update the value at key `k` in place (the effect of mutating through the
reference returned by `entry(..).or_insert(..)`). -/
def HMap.modify {V : Type} : HMap V → Nat → (V → V) → HMap V
  | [], _, _ => []
  | (k', v) :: rest, k, f =>
    if k' = k then (k', f v) :: rest else (k', v) :: HMap.modify rest k f

/-! ### Sysfs reader primitives

File contents are modelled as `Option (List Char)`: `none` stands for a file
that cannot be opened or whose bytes are not valid UTF-8 (both `unwrap`
panics in the source); `some s` is the decoded text. -/

/-- Rust `char::is_whitespace`, restricted to the ASCII whitespace characters
relevant to sysfs text. -/
def isRustWs (c : Char) : Bool :=
  c = ' ' || c = '\t' || c = '\n' || c = '\r' || c = '\x0b' || c = '\x0c'

/-- Rust `str::trim`: drop leading and trailing whitespace. -/
def rustTrim (s : List Char) : List Char :=
  ((s.dropWhile isRustWs).reverse.dropWhile isRustWs).reverse

/-- Rust `str::split('-')`: the (possibly empty) chunks between dashes; always
yields at least one chunk. -/
def splitDash : List Char → List (List Char)
  | [] => [[]]
  | c :: rest =>
    if c = '-' then [] :: splitDash rest
    else
      match splitDash rest with
      | [] => [[c]]
      | w :: ws => (c :: w) :: ws

/-- Numeric value of a digit string (most significant first). -/
def digitsVal (s : List Char) : Nat :=
  s.foldl (fun a c => a * 10 + (c.toNat - '0'.toNat)) 0

/-- Rust `str::parse::<usize>()`: an optional leading `+`, then one or more
ASCII digits, value representable in 64 bits; anything else is `Err`. -/
def parseUsize (s : List Char) : Option Nat :=
  let t := match s with
    | '+' :: r => r
    | _ => s
  if t ≠ [] ∧ t.all Char.isDigit then
    let v := digitsVal t
    if v < 2 ^ 64 then some v else none
  else none

/-- `read_online_from_sysfs`: read the file, trim, split on `-`, parse the
chunks at indices 0 and 1 as `usize`, return `end - start + 1`.  Every panic
of the source (open/read failure, missing index 1, parse failure, and the
`usize` overflow of `end - start + 1`, which Rust treats as a program error)
is `none`. -/
def read_online_from_sysfs (file : Option (List Char)) : Option Nat :=
  match file with
  | none => none
  | some content =>
    match splitDash (rustTrim content) with
    | s0 :: s1 :: _ =>
      match parseUsize s0, parseUsize s1 with
      | some a, some b =>
        if a ≤ b ∧ b - a + 1 < 2 ^ 64 then some (b - a + 1) else none
      | _, _ => none
    | _ => none

/-- `read_integer_from_sysfs`: read the file, trim, parse as `usize`. -/
def read_integer_from_sysfs (file : Option (List Char)) : Option Nat :=
  match file with
  | none => none
  | some content => parseUsize (rustTrim content)

/-! ### The sysfs environment -/

/-- The read-only filesystem state `Topology::init` consumes, keyed the way
the source keys its paths.  `topology_dir n c` is the existence of
`/sys/devices/system/node/node{n}/cpu{c}/topology`; the two file fields are
the contents of `physical_package_id` and `core_id` inside that directory;
`identify_remote` is the external `cpuid::identify_remote` collaborator
(`none` = identification failure). -/
structure SysFs where
  cpu_online : Option (List Char)
  node_online : Option (List Char)
  topology_dir : Nat → Nat → Bool
  physical_package_id : Nat → Nat → Option (List Char)
  core_id_file : Nat → Nat → Option (List Char)
  identify_remote : Nat → Option CpuInfo

/-! ### The data model -/

/-- `LCore` from the source; all ids are `u16` values (kept as `Nat < 2^16`
by construction of the build). -/
structure LCore where
  package_id : Nat
  node_id : Nat
  core_id : Nat
  lcore_id : Nat
deriving DecidableEq, Repr

/-- `Node` from the source. -/
structure Node where
  node_id : Nat
  lcores : BitMap
deriving DecidableEq, Repr

/-- `Package` from the source. -/
structure Package where
  package_id : Nat
  node_id : Nat
  cpu_info : CpuInfo
  lcores : BitMap
deriving DecidableEq, Repr

/-- `Topology` from the source: the three keyed collections. -/
structure Topology where
  packages : HMap Package
  lcores : HMap LCore
  nodes : HMap Node
deriving DecidableEq, Repr

/-! ### The builder

`Topology::init` is embedded with a ghost trace: alongside the optional
result, the list of arguments on which `cpuid::identify_remote` was invoked
is collected.  Rust's `entry(..).or_insert(v)` evaluates `v` — including the
`identify_remote(lcore_id as u16).unwrap()` inside it — eagerly on every
discovered core, so the trace records every discovered core (until a panic
aborts the build).  A `none` first component is a build panic. -/

/-- Intermediate state of the inner (per-core) loop: the packages map, the
logical-core map, and the current node's member bit-set. -/
abbrev CoreSt := HMap Package × HMap LCore × BitMap

/-- Body of the inner `for lcore_id in 0..num_cpus` loop of `Topology::init`,
with the ghost identifier-invocation trace. -/
def coreStep (fs : SysFs) (num_cpus node_id : Nat) :
    Option CoreSt × List Nat → Nat → Option CoreSt × List Nat
  | (none, tr), _ => (none, tr)
  | (some (packages, lcores, lcores_of_node), tr), lcore_id =>
    if fs.topology_dir node_id lcore_id then
      match read_integer_from_sysfs (fs.physical_package_id node_id lcore_id) with
      | none => (none, tr)
      | some rawPkg =>
        match read_integer_from_sysfs (fs.core_id_file node_id lcore_id) with
        | none => (none, tr)
        | some rawCore =>
          let package_id := u16 rawPkg
          let core_id := u16 rawCore
          let lcores' := lcores.insert (u16 lcore_id)
            ⟨package_id, u16 node_id, core_id, u16 lcore_id⟩
          let tr' := tr ++ [u16 lcore_id]
          match fs.identify_remote (u16 lcore_id) with
          | none => (none, tr')
          | some info =>
            let packages' :=
              (packages.orInsert package_id
                ⟨package_id, u16 node_id, info,
                  (BitMap.with_capacity num_cpus).set lcore_id⟩).modify package_id
                (fun p => { p with lcores := p.lcores.set lcore_id })
            (some (packages', lcores', lcores_of_node.set lcore_id), tr')
    else (some (packages, lcores, lcores_of_node), tr)

/-- Intermediate state of the outer (per-node) loop. -/
abbrev TopoSt := HMap Package × HMap LCore × HMap Node

/-- Body of the outer `for node_id in 0..num_nodes` loop of `Topology::init`. -/
def nodeStep (fs : SysFs) (num_cpus : Nat) :
    Option TopoSt × List Nat → Nat → Option TopoSt × List Nat
  | (none, tr), _ => (none, tr)
  | (some (packages, lcores, nodes), tr), node_id =>
    match (List.range num_cpus).foldl (coreStep fs num_cpus node_id)
        (some (packages, lcores, BitMap.with_capacity num_cpus), tr) with
    | (none, tr') => (none, tr')
    | (some (packages', lcores', lcores_of_node), tr') =>
      (some (packages', lcores',
        nodes.insert (u16 node_id) ⟨u16 node_id, lcores_of_node⟩), tr')

/-- `Topology::init` with the ghost identifier-invocation trace. -/
def Topology.initTraced (fs : SysFs) : Option Topology × List Nat :=
  match read_online_from_sysfs fs.cpu_online with
  | none => (none, [])
  | some num_cpus =>
    match read_online_from_sysfs fs.node_online with
    | none => (none, [])
    | some num_nodes =>
      match (List.range num_nodes).foldl (nodeStep fs num_cpus)
          (some ([], [], []), []) with
      | (none, tr) => (none, tr)
      | (some (packages, lcores, nodes), tr) => (some ⟨packages, lcores, nodes⟩, tr)

/-- `Topology::init`: `none` is the fatal build failure (a panic in the
source). -/
def Topology.init (fs : SysFs) : Option Topology := (Topology.initTraced fs).1

/-- The ghost trace: the arguments of every `cpuid::identify_remote`
invocation performed by the build, in order. -/
def identifyTrace (fs : SysFs) : List Nat := (Topology.initTraced fs).2

/-! ### The query surface -/

/-- `Topology::lcore`. -/
def Topology.lcore (t : Topology) (lcore_id : Nat) : Option LCore :=
  t.lcores.get lcore_id

/-- `Topology::node`. -/
def Topology.node (t : Topology) (node_id : Nat) : Option Node :=
  t.nodes.get node_id

/-- `Topology::package`. -/
def Topology.package (t : Topology) (package_id : Nat) : Option Package :=
  t.packages.get package_id

/-- `Topology::node_of_lcore`: resolves core → `node_id` → node. -/
def Topology.node_of_lcore (t : Topology) (lcore_id : Nat) : Option Node :=
  match t.lcores.get lcore_id with
  | none => none
  | some lc => t.nodes.get lc.node_id

/-- `Topology::package_of_lcore`: resolves core → `package_id` → package. -/
def Topology.package_of_lcore (t : Topology) (lcore_id : Nat) : Option Package :=
  match t.lcores.get lcore_id with
  | none => none
  | some lc => t.packages.get lc.package_id

/-- `Topology::lcores_of_node`. -/
def Topology.lcores_of_node (t : Topology) (node_id : Nat) : Option BitMap :=
  (t.nodes.get node_id).map (fun nd => nd.lcores)

/-- `Topology::lcores_of_package`. -/
def Topology.lcores_of_package (t : Topology) (package_id : Nat) : Option BitMap :=
  (t.packages.get package_id).map (fun p => p.lcores)

/-- `Topology::max_num_nodes` (`len() as u16`). -/
def Topology.max_num_nodes (t : Topology) : Nat := u16 t.nodes.length

/-- `Topology::max_num_packages` (`len() as u16`). -/
def Topology.max_num_packages (t : Topology) : Nat := u16 t.packages.length

/-- `Topology::max_num_lcores` (`len() as u16`). -/
def Topology.max_num_lcores (t : Topology) : Nat := u16 t.lcores.length

/-! ### Association-list map lemmas -/

namespace HMap

variable {V : Type}

theorem get_insert_self (m : HMap V) (k : Nat) (v : V) :
    (m.insert k v).get k = some v := by
  induction m with
  | nil => simp [insert, get]
  | cons kv rest ih =>
    obtain ⟨k', v'⟩ := kv
    by_cases h : k' = k <;> simp [insert, get, h, ih]

theorem get_insert_ne (m : HMap V) {k q : Nat} (v : V) (h : q ≠ k) :
    (m.insert k v).get q = m.get q := by
  induction m with
  | nil =>
    have hkq : ¬ k = q := fun hh => h hh.symm
    simp [insert, get, hkq]
  | cons kv rest ih =>
    obtain ⟨k', v'⟩ := kv
    by_cases hk : k' = k
    · subst hk
      have hkq : ¬ k' = q := fun hh => h hh.symm
      simp [insert, get, hkq]
    · simp only [insert, if_neg hk, get]
      by_cases hq : k' = q <;> simp [hq, ih]

theorem get_modify_self (m : HMap V) (k : Nat) (f : V → V) :
    (m.modify k f).get k = (m.get k).map f := by
  induction m with
  | nil => simp [modify, get]
  | cons kv rest ih =>
    obtain ⟨k', v'⟩ := kv
    by_cases h : k' = k <;> simp [modify, get, h, ih]

theorem get_modify_ne (m : HMap V) {k q : Nat} (f : V → V) (h : q ≠ k) :
    (m.modify k f).get q = m.get q := by
  induction m with
  | nil => simp [modify, get]
  | cons kv rest ih =>
    obtain ⟨k', v'⟩ := kv
    by_cases hk : k' = k
    · subst hk
      have hkq : ¬ k' = q := fun hh => h hh.symm
      simp [modify, get, hkq]
    · simp only [modify, if_neg hk, get]
      by_cases hq : k' = q <;> simp [hq, ih]

theorem modify_of_get_none (m : HMap V) {k : Nat} (f : V → V) (h : m.get k = none) :
    m.modify k f = m := by
  induction m with
  | nil => simp [modify]
  | cons kv rest ih =>
    obtain ⟨k', v'⟩ := kv
    simp only [get] at h
    by_cases hk : k' = k
    · simp [hk] at h
    · simp only [if_neg hk] at h
      simp [modify, hk, ih h]

theorem get_orInsert_of_get_none (m : HMap V) {k : Nat} (v : V) (h : m.get k = none) :
    (m.orInsert k v).get k = some v := by
  simp [orInsert, h, get_insert_self]

theorem orInsert_of_get_some (m : HMap V) {k : Nat} (v w : V) (h : m.get k = some w) :
    m.orInsert k v = m := by
  simp [orInsert, h]

theorem get_orInsert_ne (m : HMap V) {k q : Nat} (v : V) (h : q ≠ k) :
    (m.orInsert k v).get q = m.get q := by
  unfold orInsert
  cases hg : m.get k <;> simp [get_insert_ne _ _ h]

theorem insert_of_get_none (m : HMap V) {k : Nat} (v : V) (h : m.get k = none) :
    m.insert k v = m ++ [(k, v)] := by
  induction m with
  | nil => simp [insert]
  | cons kv rest ih =>
    obtain ⟨k', v'⟩ := kv
    simp only [get] at h
    by_cases hk : k' = k
    · simp [hk] at h
    · simp only [if_neg hk] at h
      simp [insert, hk, ih h]

theorem length_insert_of_get_none (m : HMap V) {k : Nat} (v : V) (h : m.get k = none) :
    (m.insert k v).length = m.length + 1 := by
  rw [insert_of_get_none m v h]; simp

theorem length_modify (m : HMap V) (k : Nat) (f : V → V) :
    (m.modify k f).length = m.length := by
  induction m with
  | nil => rfl
  | cons kv rest ih =>
    obtain ⟨k', v'⟩ := kv
    by_cases h : k' = k <;> simp [modify, h, ih]

theorem modify_append_self_of_get_none (m : HMap V) {k : Nat} (v : V) (f : V → V)
    (h : m.get k = none) : (m ++ [(k, v)]).modify k f = m ++ [(k, f v)] := by
  induction m with
  | nil => simp [HMap.modify]
  | cons kv rest ih =>
    obtain ⟨k', v'⟩ := kv
    simp only [HMap.get] at h
    by_cases hk : k' = k
    · simp [hk] at h
    · simp only [if_neg hk] at h
      simp [HMap.modify, hk, ih h]

theorem get_append (m₁ m₂ : HMap V) (k : Nat) :
    (m₁ ++ m₂).get k =
      match m₁.get k with
      | some v => some v
      | none => m₂.get k := by
  induction m₁ with
  | nil => simp [get]
  | cons kv rest ih =>
    obtain ⟨k', v'⟩ := kv
    by_cases h : k' = k <;> simp [get, h, ih]

theorem get_isSome_insert (m : HMap V) (k q : Nat) (v : V)
    (h : (m.get q).isSome) : ((m.insert k v).get q).isSome := by
  by_cases hq : q = k
  · subst hq; simp [get_insert_self]
  · rwa [get_insert_ne _ _ hq]

theorem get_isSome_orInsert (m : HMap V) (k q : Nat) (v : V)
    (h : (m.get q).isSome) : ((m.orInsert k v).get q).isSome := by
  unfold orInsert
  cases hg : m.get k
  · exact get_isSome_insert _ _ _ _ h
  · exact h

theorem get_isSome_modify (m : HMap V) (k q : Nat) (f : V → V)
    (h : (m.get q).isSome) : ((m.modify k f).get q).isSome := by
  by_cases hq : q = k
  · subst hq; rw [get_modify_self]; simpa using h
  · rwa [get_modify_ne _ _ hq]

theorem get_orInsert_self (m : HMap V) (k : Nat) (v : V) :
    (m.orInsert k v).get k = some ((m.get k).getD v) := by
  unfold orInsert
  cases h : m.get k with
  | none => simp [h, get_insert_self]
  | some w => simp [h]

/-- Sum of a numeric projection of the values. -/
def mapSum (h : V → Nat) (m : HMap V) : Nat := (m.map (fun kv => h kv.2)).sum

theorem mapSum_append (h : V → Nat) (m₁ m₂ : HMap V) :
    mapSum h (m₁ ++ m₂) = mapSum h m₁ + mapSum h m₂ := by
  simp [mapSum]

theorem mapSum_modify (h : V → Nat) (m : HMap V) {k : Nat} {v : V} (f : V → V)
    (hg : m.get k = some v) :
    mapSum h (m.modify k f) + h v = mapSum h m + h (f v) := by
  induction m with
  | nil => simp [get] at hg
  | cons kv rest ih =>
    obtain ⟨k', v'⟩ := kv
    simp only [get] at hg
    by_cases hk : k' = k
    · simp only [if_pos hk] at hg
      injection hg with hv
      subst hv
      simp [modify, hk, mapSum]
      omega
    · simp only [if_neg hk] at hg
      have := ih hg
      simp only [modify, if_neg hk, mapSum, List.map_cons, List.sum_cons] at *
      omega

theorem get_mapRange {F : Nat → V} (m k : Nat) :
    HMap.get ((List.range m).map (fun n => (n, F n))) k =
      if k < m then some (F k) else none := by
  induction m with
  | zero => simp [get]
  | succ m ih =>
    rw [List.range_succ, List.map_append, get_append]
    by_cases h : k < m
    · simp [ih, h, Nat.lt_succ_of_lt h]
    · by_cases hk : k = m
      · subst hk
        simp [ih, get]
      · have hlt : ¬ k < m + 1 := by omega
        have hmk : ¬ m = k := fun hh => hk hh.symm
        simp [ih, h, hlt, get, hmk]

end HMap

/-! ### BitMap lemmas -/

namespace BitMap

theorem length_set (b : BitMap) (i : Nat) : (b.set i).flags.length = b.flags.length := by
  simp [set]

theorem length_with_capacity (n : Nat) : (with_capacity n).flags.length = n := by
  simp [with_capacity]

private theorem getD_set_list (l : List Bool) (i j : Nat) (a d : Bool) :
    (l.set i a).getD j d = if j = i ∧ i < l.length then a else l.getD j d := by
  induction l generalizing i j with
  | nil => simp
  | cons x xs ih =>
    cases i with
    | zero =>
      cases j with
      | zero => simp
      | succ j => simp
    | succ i =>
      cases j with
      | zero => simp
      | succ j =>
        simp only [List.set_cons_succ, List.getD_cons_succ, ih, List.length_cons]
        by_cases h : j = i ∧ i < xs.length
        · rw [if_pos h, if_pos (by omega)]
        · rw [if_neg h, if_neg (by omega)]

theorem test_set (b : BitMap) (i j : Nat) :
    (b.set i).test j = if j = i ∧ i < b.flags.length then true else b.test j := by
  show (b.flags.set i true).getD j false = _
  rw [getD_set_list]
  rfl

private theorem getD_replicate_false (n i : Nat) :
    (List.replicate n false).getD i false = false := by
  induction n generalizing i with
  | zero => simp
  | succ n ih =>
    cases i with
    | zero => simp [List.replicate_succ]
    | succ i => simp [List.replicate_succ, ih]

theorem test_with_capacity (n i : Nat) : (with_capacity n).test i = false := by
  show (List.replicate n false).getD i false = false
  exact getD_replicate_false n i

theorem set_set (b : BitMap) (i : Nat) : (b.set i).set i = b.set i := by
  simp [set, List.set_set]

private theorem count_set_list (l : List Bool) (i : Nat) (hi : i < l.length) :
    (l.set i true).count true =
      if l.getD i false = true then l.count true else l.count true + 1 := by
  induction l generalizing i with
  | nil => simp at hi
  | cons x xs ih =>
    cases i with
    | zero =>
      cases x <;> simp [List.count_cons]
    | succ i =>
      have hi' : i < xs.length := by simpa using hi
      rw [List.set_cons_succ, List.getD_cons_succ, List.count_cons, List.count_cons,
        ih i hi']
      by_cases h : xs.getD i false = true
      · rw [if_pos h, if_pos h]
      · rw [if_neg h, if_neg h]
        omega

theorem popcount_set (b : BitMap) (i : Nat) (hi : i < b.flags.length) :
    (b.set i).popcount =
      if b.test i = true then b.popcount else b.popcount + 1 := by
  show (b.flags.set i true).count true = _
  rw [count_set_list _ _ hi]
  rfl

theorem popcount_with_capacity (n : Nat) : (with_capacity n).popcount = 0 := by
  show (List.replicate n false).count true = 0
  induction n with
  | zero => simp
  | succ n ih => simp [List.replicate_succ, List.count_cons, ih]

end BitMap

/-! ### Arithmetic helpers for the `u16` cast -/

theorem u16_eq_of_lt {n : Nat} (h : n < 65536) : u16 n = n := Nat.mod_eq_of_lt h

theorem u16_le (n : Nat) : u16 n ≤ n := Nat.mod_le n 65536

theorem u16_lt (n : Nat) : u16 n < 65536 := Nat.mod_lt n (by omega)

/-! ### Derived views of the filesystem used by the specifications -/

/-- The (truncated) package id the build reads for core `c` under node `n`
(meaningful when the read succeeds). -/
def pkgIdAt (fs : SysFs) (n c : Nat) : Nat :=
  u16 ((read_integer_from_sysfs (fs.physical_package_id n c)).getD 0)

/-- The (truncated) physical core id the build reads for core `c` under
node `n`. -/
def coreIdAt (fs : SysFs) (n c : Nat) : Nat :=
  u16 ((read_integer_from_sysfs (fs.core_id_file n c)).getD 0)

/-- The `LCore` record the build inserts for core `c` discovered under node
`n`. -/
def lcAt (fs : SysFs) (n c : Nat) : LCore :=
  ⟨pkgIdAt fs n c, u16 n, coreIdAt fs n c, u16 c⟩

/-- The `(node, core)` pairs discovered under node `n` among cores `< j`, in
enumeration order. -/
def dNode (fs : SysFs) (n j : Nat) : List (Nat × Nat) :=
  ((List.range j).filter (fun c => fs.topology_dir n c)).map (fun c => (n, c))

/-- All `(node, core)` pairs discovered by the build across nodes `< m`, in
enumeration order (`ncpu` cores probed per node). -/
def dpFull (fs : SysFs) (ncpu m : Nat) : List (Nat × Nat) :=
  ((List.range m).map (fun n => dNode fs n ncpu)).flatten

/-- The bit-set accumulated for node `n` after probing cores `< j`. -/
def bitmapUpTo (fs : SysFs) (ncpu n j : Nat) : BitMap :=
  ((List.range j).filter (fun c => fs.topology_dir n c)).foldl
    BitMap.set (BitMap.with_capacity ncpu)

/-- The final member bit-set of node `n`. -/
def bitmapOf (fs : SysFs) (ncpu n : Nat) : BitMap := bitmapUpTo fs ncpu n ncpu

theorem dNode_zero (fs : SysFs) (n : Nat) : dNode fs n 0 = [] := rfl

theorem dNode_succ (fs : SysFs) (n j : Nat) :
    dNode fs n (j + 1) =
      if fs.topology_dir n j then dNode fs n j ++ [(n, j)] else dNode fs n j := by
  unfold dNode
  rw [List.range_succ, List.filter_append]
  by_cases h : fs.topology_dir n j <;> simp [h]

theorem dpFull_zero (fs : SysFs) (ncpu : Nat) : dpFull fs ncpu 0 = [] := rfl

theorem dpFull_succ (fs : SysFs) (ncpu m : Nat) :
    dpFull fs ncpu (m + 1) = dpFull fs ncpu m ++ dNode fs m ncpu := by
  unfold dpFull
  rw [List.range_succ, List.map_append]
  simp

theorem mem_dNode {fs : SysFs} {n j : Nat} {nc : Nat × Nat} :
    nc ∈ dNode fs n j ↔ nc.1 = n ∧ nc.2 < j ∧ fs.topology_dir n nc.2 = true := by
  unfold dNode
  obtain ⟨a, b⟩ := nc
  simp only [List.mem_map, List.mem_filter, List.mem_range]
  constructor
  · rintro ⟨c, ⟨hc, hdir⟩, heq⟩
    injection heq with h1 h2
    exact ⟨h1.symm, by omega, by rwa [← h2]⟩
  · rintro ⟨h1, h2, h3⟩
    exact ⟨b, ⟨h2, h3⟩, by rw [h1]⟩

theorem mem_dpFull {fs : SysFs} {ncpu m : Nat} {nc : Nat × Nat} :
    nc ∈ dpFull fs ncpu m ↔
      nc.1 < m ∧ nc.2 < ncpu ∧ fs.topology_dir nc.1 nc.2 = true := by
  unfold dpFull
  simp only [List.mem_flatten, List.mem_map]
  constructor
  · rintro ⟨l, ⟨n, hn, rfl⟩, hmem⟩
    obtain ⟨h1, h2, h3⟩ := mem_dNode.mp hmem
    subst h1
    exact ⟨List.mem_range.mp hn, h2, h3⟩
  · rintro ⟨h1, h2, h3⟩
    exact ⟨dNode fs nc.1 ncpu, ⟨nc.1, List.mem_range.mpr h1, rfl⟩,
      mem_dNode.mpr ⟨rfl, h2, h3⟩⟩

theorem bitmapUpTo_zero (fs : SysFs) (ncpu n : Nat) :
    bitmapUpTo fs ncpu n 0 = BitMap.with_capacity ncpu := rfl

theorem bitmapUpTo_succ (fs : SysFs) (ncpu n j : Nat) :
    bitmapUpTo fs ncpu n (j + 1) =
      if fs.topology_dir n j then (bitmapUpTo fs ncpu n j).set j
      else bitmapUpTo fs ncpu n j := by
  unfold bitmapUpTo
  rw [List.range_succ, List.filter_append]
  by_cases h : fs.topology_dir n j <;> simp [h]

theorem length_foldl_set (l : List Nat) (b : BitMap) :
    (l.foldl BitMap.set b).flags.length = b.flags.length := by
  induction l generalizing b with
  | nil => rfl
  | cons i l ih => rw [List.foldl_cons, ih, BitMap.length_set]

theorem length_bitmapUpTo (fs : SysFs) (ncpu n j : Nat) :
    (bitmapUpTo fs ncpu n j).flags.length = ncpu := by
  unfold bitmapUpTo
  rw [length_foldl_set, BitMap.length_with_capacity]

theorem test_bitmapUpTo (fs : SysFs) (ncpu n j c : Nat) :
    (bitmapUpTo fs ncpu n j).test c = true ↔
      fs.topology_dir n c = true ∧ c < j ∧ c < ncpu := by
  induction j with
  | zero =>
    rw [bitmapUpTo_zero]
    simp [BitMap.test_with_capacity]
  | succ j ih =>
    rw [bitmapUpTo_succ]
    by_cases hd : fs.topology_dir n j
    · rw [if_pos hd, BitMap.test_set, length_bitmapUpTo]
      by_cases hc : c = j ∧ j < ncpu
      · rw [if_pos hc]
        obtain ⟨rfl, hj⟩ := hc
        simp [hd, hj]
      · rw [if_neg hc, ih]
        constructor
        · rintro ⟨h1, h2, h3⟩; exact ⟨h1, by omega, h3⟩
        · rintro ⟨h1, h2, h3⟩
          refine ⟨h1, ?_, h3⟩
          rcases Nat.lt_succ_iff_lt_or_eq.mp h2 with h | rfl
          · exact h
          · exact absurd ⟨rfl, h3⟩ hc
    · rw [if_neg hd, ih]
      constructor
      · rintro ⟨h1, h2, h3⟩; exact ⟨h1, by omega, h3⟩
      · rintro ⟨h1, h2, h3⟩
        refine ⟨h1, ?_, h3⟩
        rcases Nat.lt_succ_iff_lt_or_eq.mp h2 with h | rfl
        · exact h
        · exact absurd h1 (by simpa using hd)

theorem popcount_bitmapUpTo (fs : SysFs) (ncpu n : Nat) :
    ∀ j, j ≤ ncpu →
      (bitmapUpTo fs ncpu n j).popcount =
        (List.range j).countP (fun c => fs.topology_dir n c) := by
  intro j
  induction j with
  | zero => intro _; rw [bitmapUpTo_zero, BitMap.popcount_with_capacity]; rfl
  | succ j ih =>
    intro hj
    have hj' : j ≤ ncpu := by omega
    rw [bitmapUpTo_succ, List.range_succ, List.countP_append]
    by_cases hd : fs.topology_dir n j
    · rw [if_pos hd, BitMap.popcount_set _ _ (by rw [length_bitmapUpTo]; omega)]
      have htest : (bitmapUpTo fs ncpu n j).test j = false := by
        by_contra h
        have := (test_bitmapUpTo fs ncpu n j j).mp (by simpa using h)
        omega
      rw [htest, ih hj']
      simp [hd]
    · rw [if_neg hd, ih hj']
      simp [hd]

/-! ### Fold plumbing: a panicked build stays panicked -/

theorem foldl_stuck {σ α : Type} (step : Option σ × List Nat → α → Option σ × List Nat)
    (hstep : ∀ tr a, step (none, tr) a = (none, tr)) :
    ∀ (l : List α) (tr : List Nat), l.foldl step (none, tr) = (none, tr) := by
  intro l
  induction l with
  | nil => intro tr; rfl
  | cons a l ih => intro tr; rw [List.foldl_cons, hstep, ih]

theorem foldl_some_prefix {σ α : Type}
    (step : Option σ × List Nat → α → Option σ × List Nat)
    (hstep : ∀ tr a, step (none, tr) a = (none, tr))
    (l₁ l₂ : List α) (init : Option σ × List Nat) (s' : σ) (tr' : List Nat)
    (h : (l₁ ++ l₂).foldl step init = (some s', tr')) :
    ∃ s₁ tr₁, l₁.foldl step init = (some s₁, tr₁) := by
  rw [List.foldl_append] at h
  rcases hfold : l₁.foldl step init with ⟨os, tr₁⟩
  cases os with
  | none =>
    rw [hfold, foldl_stuck step hstep] at h
    exact absurd h (by simp)
  | some s₁ => exact ⟨s₁, tr₁, by simp [hfold]⟩

theorem coreStep_none (fs : SysFs) (ncpu n : Nat) (tr : List Nat) (c : Nat) :
    coreStep fs ncpu n (none, tr) c = (none, tr) := rfl

theorem nodeStep_none (fs : SysFs) (ncpu : Nat) (tr : List Nat) (n : Nat) :
    nodeStep fs ncpu (none, tr) n = (none, tr) := rfl

/-! ### Inversion of one inner-loop step -/

theorem coreStep_some_inversion (fs : SysFs) (ncpu n : Nat) (pk : HMap Package)
    (lc : HMap LCore) (bm : BitMap) (tr : List Nat) (c : Nat)
    (pk' : HMap Package) (lc' : HMap LCore) (bm' : BitMap) (tr' : List Nat)
    (h : coreStep fs ncpu n (some (pk, lc, bm), tr) c = (some (pk', lc', bm'), tr')) :
    (fs.topology_dir n c = false ∧ pk' = pk ∧ lc' = lc ∧ bm' = bm ∧ tr' = tr) ∨
    (fs.topology_dir n c = true ∧ ∃ v₁ v₂ info,
      read_integer_from_sysfs (fs.physical_package_id n c) = some v₁ ∧
      read_integer_from_sysfs (fs.core_id_file n c) = some v₂ ∧
      fs.identify_remote (u16 c) = some info ∧
      lc' = lc.insert (u16 c) ⟨u16 v₁, u16 n, u16 v₂, u16 c⟩ ∧
      pk' = (pk.orInsert (u16 v₁)
          ⟨u16 v₁, u16 n, info, (BitMap.with_capacity ncpu).set c⟩).modify (u16 v₁)
          (fun p => { p with lcores := p.lcores.set c }) ∧
      bm' = bm.set c ∧ tr' = tr ++ [u16 c]) := by
  by_cases hdir : fs.topology_dir n c
  · right
    refine ⟨hdir, ?_⟩
    simp only [coreStep, if_pos hdir] at h
    cases h₁ : read_integer_from_sysfs (fs.physical_package_id n c) with
    | none => rw [h₁] at h; exact absurd h (by simp)
    | some v₁ =>
      rw [h₁] at h
      cases h₂ : read_integer_from_sysfs (fs.core_id_file n c) with
      | none => rw [h₂] at h; exact absurd h (by simp)
      | some v₂ =>
        rw [h₂] at h
        cases h₃ : fs.identify_remote (u16 c) with
        | none => rw [h₃] at h; exact absurd h (by simp)
        | some info =>
          rw [h₃] at h
          simp only [Prod.mk.injEq, Option.some.injEq] at h
          obtain ⟨hst, htr⟩ := h
          obtain ⟨hp, hl, hb⟩ := Prod.mk.injEq .. ▸ hst
          exact ⟨v₁, v₂, info, rfl, rfl, rfl, by simp_all⟩
  · left
    simp only [coreStep, if_neg hdir] at h
    simp only [Prod.mk.injEq, Option.some.injEq] at h
    obtain ⟨hst, htr⟩ := h
    refine ⟨by simpa using hdir, ?_, ?_, ?_, htr.symm⟩ <;> simp_all

/-! ### Decomposing a successful build -/

theorem initTraced_none_cpu (fs : SysFs)
    (h₁ : read_online_from_sysfs fs.cpu_online = none) :
    Topology.initTraced fs = (none, []) := by
  unfold Topology.initTraced
  rw [h₁]

theorem initTraced_none_node (fs : SysFs) (ncpu : Nat)
    (h₁ : read_online_from_sysfs fs.cpu_online = some ncpu)
    (h₂ : read_online_from_sysfs fs.node_online = none) :
    Topology.initTraced fs = (none, []) := by
  unfold Topology.initTraced
  rw [h₁, h₂]

theorem initTraced_reduce (fs : SysFs) (ncpu nnodes : Nat)
    (h₁ : read_online_from_sysfs fs.cpu_online = some ncpu)
    (h₂ : read_online_from_sysfs fs.node_online = some nnodes) :
    Topology.initTraced fs =
      (match (List.range nnodes).foldl (nodeStep fs ncpu) (some ([], [], []), []) with
        | (none, t) => (none, t)
        | (some (a, b, c), t) => (some (Topology.mk a b c), t)) := by
  unfold Topology.initTraced
  rw [h₁, h₂]

theorem initTraced_char (fs : SysFs) (ncpu nnodes : Nat) (pk : HMap Package)
    (lc : HMap LCore) (nds : HMap Node) (tr : List Nat)
    (h₁ : read_online_from_sysfs fs.cpu_online = some ncpu)
    (h₂ : read_online_from_sysfs fs.node_online = some nnodes)
    (h₃ : (List.range nnodes).foldl (nodeStep fs ncpu) (some ([], [], []), []) =
      (some (pk, lc, nds), tr)) :
    Topology.initTraced fs = (some ⟨pk, lc, nds⟩, tr) := by
  rw [initTraced_reduce fs ncpu nnodes h₁ h₂, h₃]

theorem initTraced_char_none (fs : SysFs) (ncpu nnodes : Nat) (tr : List Nat)
    (h₁ : read_online_from_sysfs fs.cpu_online = some ncpu)
    (h₂ : read_online_from_sysfs fs.node_online = some nnodes)
    (h₃ : (List.range nnodes).foldl (nodeStep fs ncpu) (some ([], [], []), []) =
      (none, tr)) :
    Topology.initTraced fs = (none, tr) := by
  rw [initTraced_reduce fs ncpu nnodes h₁ h₂, h₃]

theorem init_elim (fs : SysFs) (topo : Topology) (hs : Topology.init fs = some topo) :
    ∃ ncpu nnodes tr,
      read_online_from_sysfs fs.cpu_online = some ncpu ∧
      read_online_from_sysfs fs.node_online = some nnodes ∧
      (List.range nnodes).foldl (nodeStep fs ncpu) (some ([], [], []), []) =
        (some (topo.packages, topo.lcores, topo.nodes), tr) := by
  unfold Topology.init at hs
  cases h₁ : read_online_from_sysfs fs.cpu_online with
  | none => rw [initTraced_none_cpu fs h₁] at hs; exact absurd hs (by simp)
  | some ncpu =>
    cases h₂ : read_online_from_sysfs fs.node_online with
    | none => rw [initTraced_none_node fs ncpu h₁ h₂] at hs; exact absurd hs (by simp)
    | some nnodes =>
      rcases h₃ : (List.range nnodes).foldl (nodeStep fs ncpu) (some ([], [], []), [])
        with ⟨os, tr⟩
      cases os with
      | none =>
        rw [initTraced_char_none fs ncpu nnodes tr h₁ h₂ h₃] at hs
        exact absurd hs (by simp)
      | some st =>
        obtain ⟨pk, lc, nds⟩ := st
        rw [initTraced_char fs ncpu nnodes pk lc nds tr h₁ h₂ h₃] at hs
        simp only [Option.some.injEq] at hs
        subst hs
        exact ⟨ncpu, nnodes, tr, rfl, rfl, h₃⟩

/-! ### General invariants of the build (no assumption on id ranges)

These support the referential-consistency, closed-query and node-completeness
claims; they hold for every environment on which the build succeeds. -/

/-- Field/key agreement and cross-map closure of the intermediate state. -/
structure GInv (nnodes ncpu : Nat) (pk : HMap Package) (lc : HMap LCore) : Prop where
  pk_key : ∀ k p, pk.get k = some p → p.package_id = k
  lc_key : ∀ k r, lc.get k = some r →
    r.lcore_id = k ∧ k < ncpu ∧ ((pk.get r.package_id).isSome = true) ∧
    ∃ n, n < nnodes ∧ r.node_id = u16 n

theorem GInv_empty (nnodes ncpu : Nat) : GInv nnodes ncpu [] [] := by
  constructor
  · intro k p h; exact absurd h (by simp [HMap.get])
  · intro k r h; exact absurd h (by simp [HMap.get])

theorem GInv_coreStep (fs : SysFs) (ncpu nnodes n : Nat) (hn : n < nnodes)
    (pk : HMap Package) (lc : HMap LCore) (bm : BitMap) (tr : List Nat) (c : Nat)
    (hc : c < ncpu)
    (pk' : HMap Package) (lc' : HMap LCore) (bm' : BitMap) (tr' : List Nat)
    (inv : GInv nnodes ncpu pk lc)
    (h : coreStep fs ncpu n (some (pk, lc, bm), tr) c = (some (pk', lc', bm'), tr')) :
    GInv nnodes ncpu pk' lc' := by
  rcases coreStep_some_inversion fs ncpu n pk lc bm tr c pk' lc' bm' tr' h with
    ⟨_, rfl, rfl, _, _⟩ | ⟨hdir, v₁, v₂, info, h₁, h₂, h₃, hlc, hpk, hbm, htr⟩
  · exact inv
  · subst hlc hpk
    constructor
    · intro k p hget
      by_cases hk : k = u16 v₁
      · subst hk
        rw [HMap.get_modify_self, HMap.get_orInsert_self] at hget
        simp only [Option.map_some'] at hget
        cases hold : pk.get (u16 v₁) with
        | none =>
          rw [hold] at hget
          simp only [Option.getD_none] at hget
          injection hget with hp
          rw [← hp]
        | some w =>
          rw [hold] at hget
          simp only [Option.getD_some] at hget
          injection hget with hp
          rw [← hp]
          show w.package_id = u16 v₁
          exact inv.pk_key _ _ hold
      · rw [HMap.get_modify_ne _ _ hk, HMap.get_orInsert_ne _ _ hk] at hget
        exact inv.pk_key _ _ hget
    · intro k r hget
      by_cases hk : k = u16 c
      · subst hk
        rw [HMap.get_insert_self] at hget
        injection hget with hr
        subst hr
        refine ⟨rfl, by have := u16_le c; omega, ?_, n, hn, rfl⟩
        rw [HMap.get_modify_self, HMap.get_orInsert_self]
        rfl
      · rw [HMap.get_insert_ne _ _ hk] at hget
        obtain ⟨hid, hlt, hsome, hnode⟩ := inv.lc_key _ _ hget
        exact ⟨hid, hlt,
          HMap.get_isSome_modify _ _ _ _ (HMap.get_isSome_orInsert _ _ _ _ hsome), hnode⟩

theorem GInv_coreFold (fs : SysFs) (ncpu nnodes n : Nat) (hn : n < nnodes) :
    ∀ (l : List Nat), (∀ c ∈ l, c < ncpu) →
    ∀ (pk : HMap Package) (lc : HMap LCore) (bm : BitMap) (tr : List Nat)
      (st' : CoreSt) (tr' : List Nat),
      GInv nnodes ncpu pk lc →
      l.foldl (coreStep fs ncpu n) (some (pk, lc, bm), tr) = (some st', tr') →
      GInv nnodes ncpu st'.1 st'.2.1 := by
  intro l
  induction l with
  | nil =>
    intro _ pk lc bm tr st' tr' inv hfold
    rw [List.foldl_nil] at hfold
    have h1 : some (pk, lc, bm) = some st' := congrArg Prod.fst hfold
    have h2 : st' = (pk, lc, bm) := (Option.some.inj h1).symm
    subst h2
    exact inv
  | cons c l ih =>
    intro hbound pk lc bm tr st' tr' inv hfold
    rw [List.foldl_cons] at hfold
    rcases hstep : coreStep fs ncpu n (some (pk, lc, bm), tr) c with ⟨os, tr₁⟩
    cases os with
    | none =>
      rw [hstep, foldl_stuck _ (coreStep_none fs ncpu n)] at hfold
      exact absurd hfold (by simp)
    | some st₁ =>
      obtain ⟨pk₁, lc₁, bm₁⟩ := st₁
      rw [hstep] at hfold
      exact ih (fun c' hc' => hbound c' (List.mem_cons_of_mem _ hc'))
        pk₁ lc₁ bm₁ tr₁ st' tr'
        (GInv_coreStep fs ncpu nnodes n hn pk lc bm tr c
          (hbound c (List.mem_cons_self c l)) pk₁ lc₁ bm₁ tr₁ inv hstep) hfold

theorem GInv_outer (fs : SysFs) (ncpu nnodes : Nat) :
    ∀ m, m ≤ nnodes →
    ∀ (st : TopoSt) (tr : List Nat),
      (List.range m).foldl (nodeStep fs ncpu) (some ([], [], []), []) = (some st, tr) →
      GInv nnodes ncpu st.1 st.2.1 ∧
      (∀ k nd, HMap.get st.2.2 k = some nd → nd.node_id = k) ∧
      (∀ n, n < m → ((HMap.get st.2.2 (u16 n)).isSome = true)) := by
  intro m
  induction m with
  | zero =>
    intro _ st tr hfold
    rw [List.range_zero, List.foldl_nil] at hfold
    have h1 : (some (([], [], []) : TopoSt)) = some st := congrArg Prod.fst hfold
    have h2 : st = ([], [], []) := (Option.some.inj h1).symm
    subst h2
    refine ⟨GInv_empty nnodes ncpu, ?_, ?_⟩
    · intro k nd hget; exact absurd hget (by simp [HMap.get])
    · intro n hn; omega
  | succ m ih =>
    intro hm st tr hfold
    rw [List.range_succ, List.foldl_append] at hfold
    rcases hpre : (List.range m).foldl (nodeStep fs ncpu) (some ([], [], []), [])
      with ⟨os, tr₀⟩
    cases os with
    | none =>
      rw [hpre, foldl_stuck _ (nodeStep_none fs ncpu)] at hfold
      exact absurd hfold (by simp)
    | some st₀ =>
      obtain ⟨pk₀, lc₀, nds₀⟩ := st₀
      rw [hpre] at hfold
      obtain ⟨inv₀, ndkey₀, ndall₀⟩ := ih (by omega) (pk₀, lc₀, nds₀) tr₀ hpre
      rw [List.foldl_cons, List.foldl_nil] at hfold
      simp only [nodeStep] at hfold
      rcases hin : (List.range ncpu).foldl (coreStep fs ncpu m)
        (some (pk₀, lc₀, BitMap.with_capacity ncpu), tr₀) with ⟨osi, tri⟩
      cases osi with
      | none => rw [hin] at hfold; exact absurd hfold (by simp)
      | some sti =>
        obtain ⟨pk₁, lc₁, bm₁⟩ := sti
        rw [hin] at hfold
        have hst : some ((pk₁, lc₁,
            nds₀.insert (u16 m) ⟨u16 m, bm₁⟩) : TopoSt) = some st :=
          congrArg Prod.fst hfold
        have hst' : st = (pk₁, lc₁, nds₀.insert (u16 m) ⟨u16 m, bm₁⟩) :=
          (Option.some.inj hst).symm
        subst hst'
        have inv₁ := GInv_coreFold fs ncpu nnodes m (by omega) (List.range ncpu)
          (fun c hc => List.mem_range.mp hc) pk₀ lc₀ (BitMap.with_capacity ncpu) tr₀
          (pk₁, lc₁, bm₁) tri inv₀ hin
        refine ⟨inv₁, ?_, ?_⟩
        · intro k nd hget
          by_cases hk : k = u16 m
          · subst hk
            rw [HMap.get_insert_self] at hget
            injection hget with hnd
            rw [← hnd]
          · rw [HMap.get_insert_ne _ _ hk] at hget
            exact ndkey₀ _ _ hget
        · intro n hn
          rcases Nat.lt_succ_iff_lt_or_eq.mp hn with h | rfl
          · exact HMap.get_isSome_insert _ _ _ _ (ndall₀ n h)
          · rw [HMap.get_insert_self]; rfl

/-- The general invariants hold of every successfully built topology. -/
theorem init_GInv (fs : SysFs) (topo : Topology) (hs : Topology.init fs = some topo) :
    ∃ ncpu nnodes,
      read_online_from_sysfs fs.cpu_online = some ncpu ∧
      read_online_from_sysfs fs.node_online = some nnodes ∧
      GInv nnodes ncpu topo.packages topo.lcores ∧
      (∀ k nd, topo.nodes.get k = some nd → nd.node_id = k) ∧
      (∀ n, n < nnodes → ((topo.nodes.get (u16 n)).isSome = true)) := by
  obtain ⟨ncpu, nnodes, tr, h₁, h₂, h₃⟩ := init_elim fs topo hs
  obtain ⟨inv, ndkey, ndall⟩ := GInv_outer fs ncpu nnodes nnodes (Nat.le_refl _)
    (topo.packages, topo.lcores, topo.nodes) tr h₃
  exact ⟨ncpu, nnodes, h₁, h₂, inv, ndkey, ndall⟩

/-! ### Claim C3 — cross-reference consistency of the three maps -/

/-- C3: for every logical core id `c` present in the built Topology's
logical-core map, `node_of_lcore c` and `package_of_lcore c` both return
`some`, with the returned node's `node_id` equal to `lcore(c).node_id` and
the returned package's `package_id` equal to `lcore(c).package_id`. -/
theorem C3_cross_reference_consistency (fs : SysFs) (topo : Topology)
    (hs : Topology.init fs = some topo) :
    ∀ c lc, topo.lcores.get c = some lc →
      (∃ nd, topo.node_of_lcore c = some nd ∧ nd.node_id = lc.node_id) ∧
      (∃ p, topo.package_of_lcore c = some p ∧ p.package_id = lc.package_id) := by
  obtain ⟨ncpu, nnodes, h₁, h₂, inv, ndkey, ndall⟩ := init_GInv fs topo hs
  intro c lc hget
  obtain ⟨-, -, hpk, n, hn, hnode⟩ := inv.lc_key _ _ hget
  constructor
  · have hsome := ndall n hn
    rw [← hnode] at hsome
    obtain ⟨nd, hnd⟩ := Option.isSome_iff_exists.mp hsome
    refine ⟨nd, ?_, ndkey _ _ hnd⟩
    unfold Topology.node_of_lcore
    rw [hget]
    exact hnd
  · obtain ⟨p, hp⟩ := Option.isSome_iff_exists.mp hpk
    refine ⟨p, ?_, inv.pk_key _ _ hp⟩
    unfold Topology.package_of_lcore
    rw [hget]
    exact hp

/-! ### Claim C6 — queries on unknown ids return absence, never a failure -/

/-- C6: every query operation of the built Topology is a total function that
returns `none` for ids absent from the corresponding map (so no lookup can
fail or crash), and in particular the logical-core lookup at `num_cpus` —
one past the discovered range — returns `none`. -/
theorem C6_closed_queries (fs : SysFs) (topo : Topology) (ncpu : Nat)
    (hs : Topology.init fs = some topo)
    (hc : read_online_from_sysfs fs.cpu_online = some ncpu) :
    (∀ id, topo.lcores.get id = none →
      topo.lcore id = none ∧ topo.node_of_lcore id = none ∧
      topo.package_of_lcore id = none) ∧
    (∀ id, topo.nodes.get id = none →
      topo.node id = none ∧ topo.lcores_of_node id = none) ∧
    (∀ id, topo.packages.get id = none →
      topo.package id = none ∧ topo.lcores_of_package id = none) ∧
    topo.lcore ncpu = none := by
  obtain ⟨ncpu', nnodes, h₁, h₂, inv, ndkey, ndall⟩ := init_GInv fs topo hs
  have hcc : ncpu' = ncpu := by rw [h₁] at hc; exact Option.some.inj hc
  subst hcc
  refine ⟨?_, ?_, ?_, ?_⟩
  · intro id hid
    refine ⟨hid, ?_, ?_⟩
    · unfold Topology.node_of_lcore
      rw [hid]
    · unfold Topology.package_of_lcore
      rw [hid]
  · intro id hid
    refine ⟨hid, ?_⟩
    unfold Topology.lcores_of_node
    rw [hid]
    rfl
  · intro id hid
    refine ⟨hid, ?_⟩
    unfold Topology.lcores_of_package
    rw [hid]
    rfl
  · cases hq : topo.lcores.get ncpu' with
    | none => exact hq
    | some r =>
      obtain ⟨-, hlt, -, -⟩ := inv.lc_key _ _ hq
      omega

/-! ### Claim C8 — a Node entry exists for every online node id -/

/-- C8: for every `node_id` in the online-node range `[0, num_nodes)` the
built Topology's node map contains a Node entry keyed and labelled by that
id (whether or not its member bit-set is empty); ids are `u16`, so the
online-node count is within `2 ^ 16`. -/
theorem C8_nodes_complete (fs : SysFs) (topo : Topology) (nnodes : Nat)
    (hs : Topology.init fs = some topo)
    (hn : read_online_from_sysfs fs.node_online = some nnodes)
    (hb : nnodes ≤ 65536) :
    ∀ n, n < nnodes → ∃ nd, topo.nodes.get n = some nd ∧ nd.node_id = n := by
  obtain ⟨ncpu', nnodes', h₁, h₂, inv, ndkey, ndall⟩ := init_GInv fs topo hs
  have hnn : nnodes' = nnodes := by rw [h₂] at hn; exact Option.some.inj hn
  subst hnn
  intro n hlt
  have hu : u16 n = n := u16_eq_of_lt (by omega)
  have hsome := ndall n hlt
  rw [hu] at hsome
  obtain ⟨nd, hnd⟩ := Option.isSome_iff_exists.mp hsome
  exact ⟨nd, hnd, ndkey _ _ hnd⟩

/-! ### Exact characterization of the build in the u16 identifier regime

The spec's data model fixes all identifiers as unsigned 16-bit integers, so
the online core and node counts are at most `2 ^ 16`; under that ambient
assumption (plus the spec's stated precondition that a core's topology
directory exists under at most one node) the maps built by `Topology::init`
are characterized exactly by the list of discovered `(node, core)` pairs. -/

theorem orInsert_of_get_none {V : Type} (m : HMap V) {k : Nat} (v : V)
    (h : m.get k = none) : m.orInsert k v = m ++ [(k, v)] := by
  unfold HMap.orInsert
  rw [h]
  exact HMap.insert_of_get_none m v h

/-- Exact contents of the packages and logical-core maps after the build has
processed exactly the discovered pairs `P` (in order). -/
structure BInv (fs : SysFs) (ncpu : Nat) (P : List (Nat × Nat))
    (pk : HMap Package) (lc : HMap LCore) : Prop where
  lc_iff : ∀ c r, lc.get c = some r ↔
    ∃ n, (n, c) ∈ P ∧ r = ⟨pkgIdAt fs n c, n, coreIdAt fs n c, c⟩
  lc_len : lc.length = P.length
  pk_char : ∀ pid p, pk.get pid = some p →
    p.package_id = pid ∧ p.lcores.flags.length = ncpu ∧
    (∀ c, p.lcores.test c = true ↔ ∃ n, (n, c) ∈ P ∧ pkgIdAt fs n c = pid)
  pk_none : ∀ pid, pk.get pid = none → ∀ nc ∈ P, pkgIdAt fs nc.1 nc.2 ≠ pid
  pk_sum : HMap.mapSum (fun p => p.lcores.popcount) pk = P.length

theorem BInv_empty (fs : SysFs) (ncpu : Nat) : BInv fs ncpu [] [] [] := by
  refine ⟨?_, rfl, ?_, ?_, rfl⟩
  · intro c r
    constructor
    · intro h; exact absurd h (by simp [HMap.get])
    · rintro ⟨n, hmem, -⟩; exact absurd hmem (by simp)
  · intro pid p h; exact absurd h (by simp [HMap.get])
  · intro pid _ nc hmem; exact absurd hmem (by simp)

theorem BInv_step (fs : SysFs) (ncpu : Nat) (P : List (Nat × Nat))
    (pk : HMap Package) (lc : HMap LCore) (bm : BitMap) (tr : List Nat)
    (n c : Nat) (hcpu : ncpu ≤ 65536) (hc : c < ncpu) (hn : n < 65536)
    (hfresh : ∀ nc ∈ P, nc.2 ≠ c)
    (hdir : fs.topology_dir n c = true)
    (inv : BInv fs ncpu P pk lc)
    (pk' : HMap Package) (lc' : HMap LCore) (bm' : BitMap) (tr' : List Nat)
    (h : coreStep fs ncpu n (some (pk, lc, bm), tr) c = (some (pk', lc', bm'), tr')) :
    BInv fs ncpu (P ++ [(n, c)]) pk' lc' ∧ bm' = bm.set c ∧
      tr' = tr ++ [c] := by
  rcases coreStep_some_inversion fs ncpu n pk lc bm tr c pk' lc' bm' tr' h with
    ⟨hdirF, -, -, -, -⟩ | ⟨-, v₁, v₂, info, h₁, h₂, h₃, hlc, hpk, hbm, htr⟩
  · rw [hdir] at hdirF; exact absurd hdirF (by simp)
  have hu16c : u16 c = c := u16_eq_of_lt (by omega)
  have hu16n : u16 n = n := u16_eq_of_lt hn
  have hpid : pkgIdAt fs n c = u16 v₁ := by unfold pkgIdAt; rw [h₁]; rfl
  have hcid : coreIdAt fs n c = u16 v₂ := by unfold coreIdAt; rw [h₂]; rfl
  rw [hu16c, hu16n, ← hpid, ← hcid] at hlc
  rw [hu16n, ← hpid] at hpk
  rw [hu16c] at htr
  have hlcnone : lc.get c = none := by
    cases hq : lc.get c with
    | none => rfl
    | some r =>
      obtain ⟨n', hmem, -⟩ := (inv.lc_iff c r).mp hq
      exact absurd rfl (hfresh _ hmem)
  refine ⟨?_, hbm, htr⟩
  constructor
  · -- lc_iff
    intro c' r
    by_cases hcc : c' = c
    · subst hcc
      rw [hlc, HMap.get_insert_self]
      constructor
      · intro hr
        injection hr with hr
        exact ⟨n, by simp, hr.symm⟩
      · rintro ⟨n', hmem, rfl⟩
        rcases List.mem_append.mp hmem with hmem | hmem
        · exact absurd rfl (hfresh _ hmem)
        · have he := List.mem_singleton.mp hmem
          injection he with e1 e2
          subst e1
          rfl
    · rw [hlc, HMap.get_insert_ne _ _ hcc, inv.lc_iff]
      constructor
      · rintro ⟨n', hmem, rfl⟩; exact ⟨n', List.mem_append_left _ hmem, rfl⟩
      · rintro ⟨n', hmem, rfl⟩
        rcases List.mem_append.mp hmem with hmem | hmem
        · exact ⟨n', hmem, rfl⟩
        · exfalso
          have he := List.mem_singleton.mp hmem
          injection he with e1 e2
          exact hcc e2
  · -- lc_len
    rw [hlc, HMap.length_insert_of_get_none _ _ hlcnone, inv.lc_len]
    simp
  · -- pk_char
    intro pid' p hget
    by_cases hpp : pid' = pkgIdAt fs n c
    · subst hpp
      rw [hpk, HMap.get_modify_self, HMap.get_orInsert_self] at hget
      simp only [Option.map_some'] at hget
      injection hget with hget
      cases hold : pk.get (pkgIdAt fs n c) with
      | some w =>
        rw [hold] at hget
        simp only [Option.getD_some] at hget
        obtain ⟨hwkey, hwlen, hwtest⟩ := inv.pk_char _ _ hold
        subst hget
        refine ⟨hwkey, by rw [BitMap.length_set]; exact hwlen, ?_⟩
        intro c'
        show (w.lcores.set c).test c' = true ↔ _
        rw [BitMap.test_set]
        by_cases hcc : c' = c ∧ c < w.lcores.flags.length
        · rw [if_pos hcc]
          obtain ⟨rfl, -⟩ := hcc
          simp only [true_iff]
          exact ⟨n, List.mem_append_right _ (by simp), rfl⟩
        · rw [if_neg hcc, hwtest]
          have hcc' : ¬ c' = c := by
            intro he
            exact hcc ⟨he, by rw [hwlen]; exact hc⟩
          constructor
          · rintro ⟨n', hmem, hp⟩; exact ⟨n', List.mem_append_left _ hmem, hp⟩
          · rintro ⟨n', hmem, hp⟩
            rcases List.mem_append.mp hmem with hmem | hmem
            · exact ⟨n', hmem, hp⟩
            · exfalso
              have he := List.mem_singleton.mp hmem
              injection he with e1 e2
              exact hcc' e2
      | none =>
        rw [hold] at hget
        simp only [Option.getD_none] at hget
        subst hget
        refine ⟨rfl, ?_, ?_⟩
        · show (((BitMap.with_capacity ncpu).set c).set c).flags.length = ncpu
          rw [BitMap.set_set, BitMap.length_set, BitMap.length_with_capacity]
        · intro c'
          show (((BitMap.with_capacity ncpu).set c).set c).test c' = true ↔ _
          rw [BitMap.set_set, BitMap.test_set]
          by_cases hcc : c' = c ∧ c < (BitMap.with_capacity ncpu).flags.length
          · rw [if_pos hcc]
            obtain ⟨rfl, -⟩ := hcc
            simp only [true_iff]
            exact ⟨n, List.mem_append_right _ (by simp), rfl⟩
          · rw [if_neg hcc, BitMap.test_with_capacity]
            have hcc' : ¬ c' = c := by
              intro he
              exact hcc ⟨he, by rw [BitMap.length_with_capacity]; exact hc⟩
            simp only [Bool.false_eq_true, false_iff]
            rintro ⟨n', hmem, hp⟩
            rcases List.mem_append.mp hmem with hmem | hmem
            · exact inv.pk_none _ hold (n', c') hmem hp
            · have he := List.mem_singleton.mp hmem
              injection he with e1 e2
              exact hcc' e2
    · rw [hpk, HMap.get_modify_ne _ _ hpp, HMap.get_orInsert_ne _ _ hpp] at hget
      obtain ⟨hwkey, hwlen, hwtest⟩ := inv.pk_char _ _ hget
      refine ⟨hwkey, hwlen, ?_⟩
      intro c'
      rw [hwtest]
      constructor
      · rintro ⟨n', hmem, hp⟩; exact ⟨n', List.mem_append_left _ hmem, hp⟩
      · rintro ⟨n', hmem, hp⟩
        rcases List.mem_append.mp hmem with hmem | hmem
        · exact ⟨n', hmem, hp⟩
        · exfalso
          have he := List.mem_singleton.mp hmem
          injection he with e1 e2
          subst e1 e2
          exact hpp hp.symm
  · -- pk_none
    intro pid' hget
    have hpp : ¬ pid' = pkgIdAt fs n c := by
      intro he
      subst he
      rw [hpk, HMap.get_modify_self, HMap.get_orInsert_self] at hget
      exact absurd hget (by simp)
    rw [hpk, HMap.get_modify_ne _ _ hpp, HMap.get_orInsert_ne _ _ hpp] at hget
    intro nc hmem hp
    rcases List.mem_append.mp hmem with hmem | hmem
    · exact inv.pk_none _ hget nc hmem hp
    · have he := List.mem_singleton.mp hmem
      rw [he] at hp
      exact hpp hp.symm
  · -- pk_sum
    cases hold : pk.get (pkgIdAt fs n c) with
    | some w =>
      rw [hpk, HMap.orInsert_of_get_some _ _ _ hold]
      obtain ⟨-, hwlen, hwtest⟩ := inv.pk_char _ _ hold
      have htestF : w.lcores.test c = false := by
        cases hq : w.lcores.test c with
        | false => rfl
        | true =>
          obtain ⟨n', hmem, -⟩ := (hwtest c).mp hq
          exact absurd rfl (hfresh _ hmem)
      have hms := HMap.mapSum_modify (fun p => p.lcores.popcount) pk
        (fun p => { p with lcores := p.lcores.set c }) hold
      simp only [] at hms
      have hpop : ({ w with lcores := w.lcores.set c } : Package).lcores.popcount =
          w.lcores.popcount + 1 := by
        show (w.lcores.set c).popcount = _
        rw [BitMap.popcount_set _ _ (by rw [hwlen]; exact hc), htestF]
        simp
      rw [hpop, inv.pk_sum] at hms
      simp only [List.length_append, List.length_singleton]
      omega
    | none =>
      rw [hpk, orInsert_of_get_none _ _ hold,
        HMap.modify_append_self_of_get_none _ _ _ hold, HMap.mapSum_append]
      have hpop1 : ((BitMap.with_capacity ncpu).set c).popcount = 1 := by
        rw [BitMap.popcount_set _ _ (by rw [BitMap.length_with_capacity]; exact hc),
          BitMap.test_with_capacity, BitMap.popcount_with_capacity]
        simp
      have hone : HMap.mapSum (fun p => p.lcores.popcount)
          [(pkgIdAt fs n c,
            (fun p : Package => { p with lcores := p.lcores.set c })
              ⟨pkgIdAt fs n c, n, info, (BitMap.with_capacity ncpu).set c⟩)] = 1 := by
        show (((BitMap.with_capacity ncpu).set c).set c).popcount + 0 = 1
        rw [BitMap.set_set, hpop1]
      rw [hone, inv.pk_sum]
      simp

theorem map_snd_dNode (fs : SysFs) (n j : Nat) :
    (dNode fs n j).map (fun nc => nc.2) =
      (List.range j).filter (fun c => fs.topology_dir n c) := by
  simp [dNode, List.map_map]

theorem BInv_inner (fs : SysFs) (ncpu nnodes : Nat)
    (hcpu : ncpu ≤ 65536) (hnodes : nnodes ≤ 65536)
    (huniq : ∀ c, c < ncpu → ∀ n, n < nnodes → ∀ n', n' < nnodes →
      fs.topology_dir n c = true → fs.topology_dir n' c = true → n = n')
    (n : Nat) (hn : n < nnodes)
    (P₀ : List (Nat × Nat))
    (hP₀ : ∀ nc ∈ P₀, nc.1 < n ∧ nc.2 < ncpu ∧ fs.topology_dir nc.1 nc.2 = true)
    (pk₀ : HMap Package) (lc₀ : HMap LCore) (tr₀ : List Nat)
    (inv₀ : BInv fs ncpu P₀ pk₀ lc₀) :
    ∀ j, j ≤ ncpu → ∀ (st' : CoreSt) (tr' : List Nat),
      (List.range j).foldl (coreStep fs ncpu n)
        (some (pk₀, lc₀, BitMap.with_capacity ncpu), tr₀) = (some st', tr') →
      BInv fs ncpu (P₀ ++ dNode fs n j) st'.1 st'.2.1 ∧
      st'.2.2 = bitmapUpTo fs ncpu n j ∧
      tr' = tr₀ ++ (List.range j).filter (fun c => fs.topology_dir n c) := by
  intro j
  induction j with
  | zero =>
    intro _ st' tr' hfold
    rw [List.range_zero, List.foldl_nil] at hfold
    have h1 : st' = (pk₀, lc₀, BitMap.with_capacity ncpu) :=
      (Option.some.inj (congrArg Prod.fst hfold)).symm
    have h2 : tr' = tr₀ := (congrArg Prod.snd hfold).symm
    subst h1
    subst h2
    refine ⟨?_, ?_, ?_⟩
    · rw [dNode_zero, List.append_nil]; exact inv₀
    · show BitMap.with_capacity ncpu = bitmapUpTo fs ncpu n 0
      rw [bitmapUpTo_zero]
    · simp
  | succ j ih =>
    intro hj st' tr' hfold
    rw [List.range_succ, List.foldl_append] at hfold
    rcases hpre : (List.range j).foldl (coreStep fs ncpu n)
      (some (pk₀, lc₀, BitMap.with_capacity ncpu), tr₀) with ⟨os, tr₁⟩
    cases os with
    | none =>
      rw [hpre, foldl_stuck _ (coreStep_none fs ncpu n)] at hfold
      exact absurd hfold (by simp)
    | some st₁ =>
      obtain ⟨pk₁, lc₁, bm₁⟩ := st₁
      rw [hpre] at hfold
      obtain ⟨inv₁, hbm₁, htr₁⟩ := ih (by omega) (pk₁, lc₁, bm₁) tr₁ hpre
      rw [List.foldl_cons, List.foldl_nil] at hfold
      obtain ⟨pk', lc', bm'⟩ := st'
      by_cases hd : fs.topology_dir n j = true
      · have hfresh : ∀ nc ∈ P₀ ++ dNode fs n j, nc.2 ≠ j := by
          intro nc hmem
          rcases List.mem_append.mp hmem with hmem | hmem
          · obtain ⟨hn1, hn2, hn3⟩ := hP₀ nc hmem
            intro he
            rw [he] at hn3
            have := huniq j (by omega) nc.1 (by omega) n hn hn3 hd
            omega
          · obtain ⟨-, hlt, -⟩ := mem_dNode.mp hmem
            omega
        have hbm₁' : bm₁ = bitmapUpTo fs ncpu n j := hbm₁
        obtain ⟨inv₂, hbm₂, htr₂⟩ := BInv_step fs ncpu (P₀ ++ dNode fs n j)
          pk₁ lc₁ bm₁ tr₁ n j hcpu (by omega) (by omega) hfresh hd inv₁
          pk' lc' bm' tr' hfold
        refine ⟨?_, ?_, ?_⟩
        · show BInv fs ncpu (P₀ ++ dNode fs n (j + 1)) pk' lc'
          rw [dNode_succ, if_pos hd, ← List.append_assoc]
          exact inv₂
        · show bm' = bitmapUpTo fs ncpu n (j + 1)
          rw [bitmapUpTo_succ, if_pos hd, hbm₂, hbm₁']
        · rw [htr₂, htr₁, List.range_succ, List.filter_append]
          simp [hd]
      · rcases coreStep_some_inversion fs ncpu n pk₁ lc₁ bm₁ tr₁ j pk' lc' bm' tr'
          hfold with ⟨-, rfl, rfl, rfl, rfl⟩ | ⟨hdT, -⟩
        · refine ⟨?_, ?_, ?_⟩
          · show BInv fs ncpu (P₀ ++ dNode fs n (j + 1)) pk' lc'
            rw [dNode_succ, if_neg hd]
            exact inv₁
          · show bm' = bitmapUpTo fs ncpu n (j + 1)
            rw [bitmapUpTo_succ, if_neg hd]
            exact hbm₁
          · rw [htr₁, List.range_succ, List.filter_append]
            simp [hd]
        · exact absurd hdT hd

theorem BInv_outer_reg (fs : SysFs) (ncpu nnodes : Nat)
    (hcpu : ncpu ≤ 65536) (hnodes : nnodes ≤ 65536)
    (huniq : ∀ c, c < ncpu → ∀ n, n < nnodes → ∀ n', n' < nnodes →
      fs.topology_dir n c = true → fs.topology_dir n' c = true → n = n') :
    ∀ m, m ≤ nnodes → ∀ (st : TopoSt) (tr : List Nat),
      (List.range m).foldl (nodeStep fs ncpu) (some ([], [], []), []) = (some st, tr) →
      BInv fs ncpu (dpFull fs ncpu m) st.1 st.2.1 ∧
      st.2.2 = (List.range m).map (fun k => (k, Node.mk k (bitmapOf fs ncpu k))) ∧
      tr = (dpFull fs ncpu m).map (fun nc => nc.2) := by
  intro m
  induction m with
  | zero =>
    intro _ st tr hfold
    rw [List.range_zero, List.foldl_nil] at hfold
    have h1 : st = ([], [], []) := (Option.some.inj (congrArg Prod.fst hfold)).symm
    have h2 : tr = [] := (congrArg Prod.snd hfold).symm
    subst h1
    subst h2
    exact ⟨BInv_empty fs ncpu, by simp, by simp [dpFull_zero]⟩
  | succ m ih =>
    intro hm st tr hfold
    rw [List.range_succ, List.foldl_append] at hfold
    rcases hpre : (List.range m).foldl (nodeStep fs ncpu) (some ([], [], []), [])
      with ⟨os, tr₀⟩
    cases os with
    | none =>
      rw [hpre, foldl_stuck _ (nodeStep_none fs ncpu)] at hfold
      exact absurd hfold (by simp)
    | some st₀ =>
      obtain ⟨pk₀, lc₀, nds₀⟩ := st₀
      rw [hpre] at hfold
      obtain ⟨inv₀, hnds₀, htr₀⟩ := ih (by omega) (pk₀, lc₀, nds₀) tr₀ hpre
      rw [List.foldl_cons, List.foldl_nil] at hfold
      simp only [nodeStep] at hfold
      rcases hin : (List.range ncpu).foldl (coreStep fs ncpu m)
        (some (pk₀, lc₀, BitMap.with_capacity ncpu), tr₀) with ⟨osi, tri⟩
      cases osi with
      | none => rw [hin] at hfold; exact absurd hfold (by simp)
      | some sti =>
        obtain ⟨pk₁, lc₁, bm₁⟩ := sti
        rw [hin] at hfold
        have hst : st = (pk₁, lc₁, nds₀.insert (u16 m) ⟨u16 m, bm₁⟩) :=
          (Option.some.inj (congrArg Prod.fst hfold)).symm
        have htrr : tr = tri := (congrArg Prod.snd hfold).symm
        subst hst
        subst htrr
        dsimp only at inv₀ hnds₀
        have hP₀ : ∀ nc ∈ dpFull fs ncpu m,
            nc.1 < m ∧ nc.2 < ncpu ∧ fs.topology_dir nc.1 nc.2 = true :=
          fun nc hmem => mem_dpFull.mp hmem
        obtain ⟨inv₁, hbm, htri⟩ := BInv_inner fs ncpu nnodes hcpu hnodes huniq m
          (by omega) (dpFull fs ncpu m) hP₀ pk₀ lc₀ tr₀ inv₀ ncpu (Nat.le_refl _)
          (pk₁, lc₁, bm₁) tr hin
        dsimp only at inv₁ hbm
        have hum : u16 m = m := u16_eq_of_lt (by omega)
        refine ⟨?_, ?_, ?_⟩
        · show BInv fs ncpu (dpFull fs ncpu (m + 1)) pk₁ lc₁
          rw [dpFull_succ]
          exact inv₁
        · show nds₀.insert (u16 m) ⟨u16 m, bm₁⟩ =
            (List.range (m + 1)).map (fun k => (k, Node.mk k (bitmapOf fs ncpu k)))
          have hnone : nds₀.get m = none := by
            rw [hnds₀, HMap.get_mapRange]
            simp
          rw [hum, HMap.insert_of_get_none _ _ hnone, hnds₀, List.range_succ,
            List.map_append]
          have hbm' : bm₁ = bitmapOf fs ncpu m := hbm
          rw [hbm']
          simp
        · show tr = (dpFull fs ncpu (m + 1)).map (fun nc => nc.2)
          rw [htri, htr₀, dpFull_succ, List.map_append, map_snd_dNode]

/-- Under the u16 identifier regime plus the one-node-per-core precondition,
the successfully built topology is characterized exactly by the discovered
pairs. -/
theorem init_BInv (fs : SysFs) (topo : Topology) (ncpu nnodes : Nat)
    (h₁ : read_online_from_sysfs fs.cpu_online = some ncpu)
    (h₂ : read_online_from_sysfs fs.node_online = some nnodes)
    (hcpu : ncpu ≤ 65536) (hnodes : nnodes ≤ 65536)
    (huniq : ∀ c, c < ncpu → ∀ n, n < nnodes → ∀ n', n' < nnodes →
      fs.topology_dir n c = true → fs.topology_dir n' c = true → n = n')
    (hs : Topology.init fs = some topo) :
    BInv fs ncpu (dpFull fs ncpu nnodes) topo.packages topo.lcores ∧
    topo.nodes = (List.range nnodes).map (fun k => (k, Node.mk k (bitmapOf fs ncpu k))) ∧
    identifyTrace fs = (dpFull fs ncpu nnodes).map (fun nc => nc.2) := by
  obtain ⟨ncpu', nnodes', tr, h₁', h₂', h₃⟩ := init_elim fs topo hs
  rw [h₁] at h₁'
  rw [h₂] at h₂'
  have e1 : ncpu = ncpu' := Option.some.inj h₁'
  have e2 : nnodes = nnodes' := Option.some.inj h₂'
  subst e1
  subst e2
  obtain ⟨inv, hnds, htr⟩ := BInv_outer_reg fs ncpu nnodes hcpu hnodes huniq nnodes
    (Nat.le_refl _) (topo.packages, topo.lcores, topo.nodes) tr h₃
  refine ⟨inv, hnds, ?_⟩
  have hchar := initTraced_char fs ncpu nnodes topo.packages topo.lcores topo.nodes
    tr h₁ h₂ h₃
  unfold identifyTrace
  rw [hchar, ← htr]

/-! ### Claim C2 — membership agreement between bit-sets and the core map -/

/-- C2: under the precondition that each core's topology directory exists
under at most one node (and the u16 identifier regime of the spec's data
model), every core id marked in a node's member bit-set resolves through
`lcore` to a record whose `node_id` matches that node, and every core id
marked in a package's member bit-set resolves to a record whose `package_id`
matches that package. -/
theorem C2_membership_agreement (fs : SysFs) (topo : Topology) (ncpu nnodes : Nat)
    (h₁ : read_online_from_sysfs fs.cpu_online = some ncpu)
    (h₂ : read_online_from_sysfs fs.node_online = some nnodes)
    (hcpu : ncpu ≤ 65536) (hnodes : nnodes ≤ 65536)
    (huniq : ∀ c, c < ncpu → ∀ n, n < nnodes → ∀ n', n' < nnodes →
      fs.topology_dir n c = true → fs.topology_dir n' c = true → n = n')
    (hs : Topology.init fs = some topo) :
    (∀ nid nd, topo.nodes.get nid = some nd → ∀ c, nd.lcores.test c = true →
      ∃ lc, topo.lcores.get c = some lc ∧ lc.node_id = nd.node_id) ∧
    (∀ pid p, topo.packages.get pid = some p → ∀ c, p.lcores.test c = true →
      ∃ lc, topo.lcores.get c = some lc ∧ lc.package_id = p.package_id) := by
  obtain ⟨inv, hnds, -⟩ := init_BInv fs topo ncpu nnodes h₁ h₂ hcpu hnodes huniq hs
  constructor
  · intro nid nd hget c htest
    rw [hnds, HMap.get_mapRange] at hget
    by_cases hlt : nid < nnodes
    · rw [if_pos hlt] at hget
      injection hget with hget
      subst hget
      have htest' : (bitmapOf fs ncpu nid).test c = true := htest
      obtain ⟨hdir, hcj, -⟩ := (test_bitmapUpTo fs ncpu nid ncpu c).mp htest'
      refine ⟨⟨pkgIdAt fs nid c, nid, coreIdAt fs nid c, c⟩, ?_, rfl⟩
      exact (inv.lc_iff c _).mpr ⟨nid, mem_dpFull.mpr ⟨hlt, hcj, hdir⟩, rfl⟩
    · rw [if_neg hlt] at hget
      exact absurd hget (by simp)
  · intro pid p hget c htest
    obtain ⟨hkey, hlen, htiff⟩ := inv.pk_char pid p hget
    obtain ⟨n, hmem, hpid⟩ := (htiff c).mp htest
    refine ⟨⟨pkgIdAt fs n c, n, coreIdAt fs n c, c⟩, ?_, ?_⟩
    · exact (inv.lc_iff c _).mpr ⟨n, hmem, rfl⟩
    · show pkgIdAt fs n c = p.package_id
      rw [hpid, hkey]

/-! ### Claim C4 — no core is double-counted or dropped in either partition -/

/-- C4: under the same preconditions as C2, the popcounts of the node member
bit-sets sum to the size of the logical-core map, and so do the popcounts of
the package member bit-sets. -/
theorem C4_completeness (fs : SysFs) (topo : Topology) (ncpu nnodes : Nat)
    (h₁ : read_online_from_sysfs fs.cpu_online = some ncpu)
    (h₂ : read_online_from_sysfs fs.node_online = some nnodes)
    (hcpu : ncpu ≤ 65536) (hnodes : nnodes ≤ 65536)
    (huniq : ∀ c, c < ncpu → ∀ n, n < nnodes → ∀ n', n' < nnodes →
      fs.topology_dir n c = true → fs.topology_dir n' c = true → n = n')
    (hs : Topology.init fs = some topo) :
    HMap.mapSum (fun nd => nd.lcores.popcount) topo.nodes = topo.lcores.length ∧
    HMap.mapSum (fun p => p.lcores.popcount) topo.packages = topo.lcores.length := by
  obtain ⟨inv, hnds, -⟩ := init_BInv fs topo ncpu nnodes h₁ h₂ hcpu hnodes huniq hs
  constructor
  · rw [hnds, inv.lc_len]
    unfold HMap.mapSum dpFull
    rw [List.map_map, List.length_flatten, List.map_map]
    apply congrArg List.sum
    apply List.map_congr_left
    intro n hn'
    show (bitmapOf fs ncpu n).popcount = (dNode fs n ncpu).length
    unfold bitmapOf dNode
    rw [List.length_map, popcount_bitmapUpTo fs ncpu n ncpu (Nat.le_refl _),
      List.countP_eq_length_filter]
  · rw [inv.pk_sum, inv.lc_len]

/-! ### Claim C7 — sparse tolerance: absent directories model nothing -/

/-- C7: under the same ambient regime, a `(node, core)` pair whose topology
directory is absent marks nothing in that node's bit-set, and a core whose
directory is absent under every node has no entry in the logical-core map
and is marked in no package (and no node) bit-set. -/
theorem C7_sparse_tolerance (fs : SysFs) (topo : Topology) (ncpu nnodes : Nat)
    (h₁ : read_online_from_sysfs fs.cpu_online = some ncpu)
    (h₂ : read_online_from_sysfs fs.node_online = some nnodes)
    (hcpu : ncpu ≤ 65536) (hnodes : nnodes ≤ 65536)
    (huniq : ∀ c, c < ncpu → ∀ n, n < nnodes → ∀ n', n' < nnodes →
      fs.topology_dir n c = true → fs.topology_dir n' c = true → n = n')
    (hs : Topology.init fs = some topo) :
    (∀ n c, fs.topology_dir n c = false →
      ∀ nd, topo.nodes.get n = some nd → nd.lcores.test c = false) ∧
    (∀ c, (∀ n, n < nnodes → fs.topology_dir n c = false) →
      topo.lcores.get c = none ∧
      (∀ pid p, topo.packages.get pid = some p → p.lcores.test c = false) ∧
      (∀ nid nd, topo.nodes.get nid = some nd → nd.lcores.test c = false)) := by
  obtain ⟨inv, hnds, -⟩ := init_BInv fs topo ncpu nnodes h₁ h₂ hcpu hnodes huniq hs
  have hnode_test : ∀ nid nd, topo.nodes.get nid = some nd →
      nid < nnodes ∧
      ∀ c, nd.lcores.test c = true → fs.topology_dir nid c = true ∧ c < ncpu := by
    intro nid nd hget
    rw [hnds, HMap.get_mapRange] at hget
    by_cases hlt : nid < nnodes
    · rw [if_pos hlt] at hget
      injection hget with hget
      subst hget
      refine ⟨hlt, ?_⟩
      intro c htest
      obtain ⟨hdir, hc1, -⟩ := (test_bitmapUpTo fs ncpu nid ncpu c).mp htest
      exact ⟨hdir, hc1⟩
    · rw [if_neg hlt] at hget
      exact absurd hget (by simp)
  constructor
  · intro n c hdirF nd hget
    cases hq : nd.lcores.test c with
    | false => rfl
    | true =>
      obtain ⟨-, htest⟩ := hnode_test n nd hget
      obtain ⟨hdir, -⟩ := htest c hq
      rw [hdirF] at hdir
      exact absurd hdir (by simp)
  · intro c hall
    refine ⟨?_, ?_, ?_⟩
    · cases hq : topo.lcores.get c with
      | none => rfl
      | some r =>
        obtain ⟨n, hmem, -⟩ := (inv.lc_iff c r).mp hq
        obtain ⟨hm1, -, hm3⟩ := mem_dpFull.mp hmem
        rw [hall n hm1] at hm3
        exact absurd hm3 (by simp)
    · intro pid p hget
      obtain ⟨-, -, htiff⟩ := inv.pk_char pid p hget
      cases hq : p.lcores.test c with
      | false => rfl
      | true =>
        obtain ⟨n, hmem, -⟩ := (htiff c).mp hq
        obtain ⟨hm1, -, hm3⟩ := mem_dpFull.mp hmem
        rw [hall n hm1] at hm3
        exact absurd hm3 (by simp)
    · intro nid nd hget
      cases hq : nd.lcores.test c with
      | false => rfl
      | true =>
        obtain ⟨hlt, htest⟩ := hnode_test nid nd hget
        obtain ⟨hdir, -⟩ := htest c hq
        rw [hall nid hlt] at hdir
        exact absurd hdir (by simp)

/-! ### Claim C1 — hardware identification

`entry(package_id).or_insert(Package { cpu_info: identify_remote(..).unwrap(), .. })`
evaluates its argument eagerly, so `cpuid::identify_remote` runs once per
discovered core — not once per package; only the result for the first core of
each package is kept, and a failed invocation for any discovered core aborts
the build.  The ghost trace makes the invocations visible. -/

theorem find?_append_of_some {α : Type} (p : α → Bool) (l₁ l₂ : List α) (x : α)
    (h : l₁.find? p = some x) : (l₁ ++ l₂).find? p = some x := by
  induction l₁ with
  | nil => simp [List.find?] at h
  | cons a l ih =>
    rw [List.cons_append]
    cases hp : p a with
    | true =>
      rw [List.find?_cons_of_pos _ hp] at h
      rw [List.find?_cons_of_pos _ hp]
      exact h
    | false =>
      rw [List.find?_cons_of_neg _ (by simp [hp])] at h
      rw [List.find?_cons_of_neg _ (by simp [hp])]
      exact ih h

theorem find?_append_of_none {α : Type} (p : α → Bool) (l₁ l₂ : List α)
    (h : l₁.find? p = none) : (l₁ ++ l₂).find? p = l₂.find? p := by
  induction l₁ with
  | nil => simp
  | cons a l ih =>
    rw [List.cons_append]
    cases hp : p a with
    | true => rw [List.find?_cons_of_pos _ hp] at h; exact absurd h (by simp)
    | false =>
      rw [List.find?_cons_of_neg _ (by simp [hp])] at h
      rw [List.find?_cons_of_neg _ (by simp [hp])]
      exact ih h

/-- Trace invariant: the identifier has been invoked exactly once per
discovered core, and every package entry's `cpu_info` is the identifier's
result for the first discovered core of that package. -/
structure TInv (fs : SysFs) (P : List (Nat × Nat)) (pk : HMap Package)
    (tr : List Nat) : Prop where
  tr_eq : tr = P.map (fun nc => u16 nc.2)
  pk_first : ∀ pid p, pk.get pid = some p →
    ∃ nc, P.find? (fun x => decide (pkgIdAt fs x.1 x.2 = pid)) = some nc ∧
      fs.identify_remote (u16 nc.2) = some p.cpu_info
  pk_none : ∀ pid, pk.get pid = none → ∀ nc ∈ P, pkgIdAt fs nc.1 nc.2 ≠ pid

theorem TInv_empty (fs : SysFs) : TInv fs [] [] [] := by
  refine ⟨rfl, ?_, ?_⟩
  · intro pid p h; exact absurd h (by simp [HMap.get])
  · intro pid _ nc hmem; exact absurd hmem (by simp)

theorem TInv_inner (fs : SysFs) (ncpu n : Nat) (P₀ : List (Nat × Nat))
    (pk₀ : HMap Package) (lc₀ : HMap LCore) (bm₀ : BitMap) (tr₀ : List Nat)
    (inv₀ : TInv fs P₀ pk₀ tr₀) :
    ∀ j, ∀ (st' : CoreSt) (tr' : List Nat),
      (List.range j).foldl (coreStep fs ncpu n) (some (pk₀, lc₀, bm₀), tr₀) =
        (some st', tr') →
      TInv fs (P₀ ++ dNode fs n j) st'.1 tr' := by
  intro j
  induction j with
  | zero =>
    intro st' tr' hfold
    rw [List.range_zero, List.foldl_nil] at hfold
    have h1 : st' = (pk₀, lc₀, bm₀) := (Option.some.inj (congrArg Prod.fst hfold)).symm
    have h2 : tr' = tr₀ := (congrArg Prod.snd hfold).symm
    subst h1
    subst h2
    rw [dNode_zero, List.append_nil]
    exact inv₀
  | succ j ih =>
    intro st' tr' hfold
    rw [List.range_succ, List.foldl_append] at hfold
    rcases hpre : (List.range j).foldl (coreStep fs ncpu n) (some (pk₀, lc₀, bm₀), tr₀)
      with ⟨os, tr₁⟩
    cases os with
    | none =>
      rw [hpre, foldl_stuck _ (coreStep_none fs ncpu n)] at hfold
      exact absurd hfold (by simp)
    | some st₁ =>
      obtain ⟨pk₁, lc₁, bm₁⟩ := st₁
      rw [hpre] at hfold
      have inv₁ := ih (pk₁, lc₁, bm₁) tr₁ hpre
      dsimp only at inv₁
      rw [List.foldl_cons, List.foldl_nil] at hfold
      obtain ⟨pk', lc', bm'⟩ := st'
      rcases coreStep_some_inversion fs ncpu n pk₁ lc₁ bm₁ tr₁ j pk' lc' bm' tr'
        hfold with ⟨hdF, rfl, rfl, rfl, rfl⟩ | ⟨hdT, v₁, v₂, info, h₁, h₂, h₃, hlc, hpk, hbm, htr⟩
      · rw [dNode_succ, if_neg (by simp [hdF])]
        exact inv₁
      · have hpid : pkgIdAt fs n j = u16 v₁ := by unfold pkgIdAt; rw [h₁]; rfl
        rw [← hpid] at hpk
        have hP : P₀ ++ dNode fs n (j + 1) = (P₀ ++ dNode fs n j) ++ [(n, j)] := by
          rw [dNode_succ, if_pos hdT, ← List.append_assoc]
        rw [hP]
        set P₁ := P₀ ++ dNode fs n j with hP₁
        constructor
        · simp [htr, inv₁.tr_eq, hP₁]
        · intro pid p hget
          by_cases hpp : pid = pkgIdAt fs n j
          · subst hpp
            rw [hpk, HMap.get_modify_self, HMap.get_orInsert_self] at hget
            simp only [Option.map_some'] at hget
            injection hget with hget
            cases hold : pk₁.get (pkgIdAt fs n j) with
            | some w =>
              rw [hold] at hget
              simp only [Option.getD_some] at hget
              obtain ⟨nc, hfind, hinfo⟩ := inv₁.pk_first _ _ hold
              refine ⟨nc, find?_append_of_some _ _ _ _ hfind, ?_⟩
              rw [← hget]
              exact hinfo
            | none =>
              rw [hold] at hget
              simp only [Option.getD_none] at hget
              have hfnone : P₁.find?
                  (fun x => decide (pkgIdAt fs x.1 x.2 = pkgIdAt fs n j)) = none := by
                rw [List.find?_eq_none]
                intro x hx
                simp only [decide_eq_true_eq]
                exact inv₁.pk_none _ hold x hx
              refine ⟨(n, j), ?_, ?_⟩
              · rw [find?_append_of_none _ _ _ hfnone]
                simp [List.find?]
              · rw [← hget]
                exact h₃
          · rw [hpk, HMap.get_modify_ne _ _ hpp, HMap.get_orInsert_ne _ _ hpp] at hget
            obtain ⟨nc, hfind, hinfo⟩ := inv₁.pk_first _ _ hget
            exact ⟨nc, find?_append_of_some _ _ _ _ hfind, hinfo⟩
        · intro pid hget nc hmem
          have hpp : ¬ pid = pkgIdAt fs n j := by
            intro he
            subst he
            rw [hpk, HMap.get_modify_self, HMap.get_orInsert_self] at hget
            exact absurd hget (by simp)
          rw [hpk, HMap.get_modify_ne _ _ hpp, HMap.get_orInsert_ne _ _ hpp] at hget
          rcases List.mem_append.mp hmem with hmem | hmem
          · exact inv₁.pk_none _ hget nc hmem
          · have he := List.mem_singleton.mp hmem
            subst he
            intro hcontra
            exact hpp hcontra.symm

theorem TInv_outer (fs : SysFs) (ncpu : Nat) :
    ∀ m, ∀ (st : TopoSt) (tr : List Nat),
      (List.range m).foldl (nodeStep fs ncpu) (some ([], [], []), []) = (some st, tr) →
      TInv fs (dpFull fs ncpu m) st.1 tr := by
  intro m
  induction m with
  | zero =>
    intro st tr hfold
    rw [List.range_zero, List.foldl_nil] at hfold
    have h1 : st = ([], [], []) := (Option.some.inj (congrArg Prod.fst hfold)).symm
    have h2 : tr = [] := (congrArg Prod.snd hfold).symm
    subst h1
    subst h2
    rw [dpFull_zero]
    exact TInv_empty fs
  | succ m ih =>
    intro st tr hfold
    rw [List.range_succ, List.foldl_append] at hfold
    rcases hpre : (List.range m).foldl (nodeStep fs ncpu) (some ([], [], []), [])
      with ⟨os, tr₀⟩
    cases os with
    | none =>
      rw [hpre, foldl_stuck _ (nodeStep_none fs ncpu)] at hfold
      exact absurd hfold (by simp)
    | some st₀ =>
      obtain ⟨pk₀, lc₀, nds₀⟩ := st₀
      rw [hpre] at hfold
      have inv₀ := ih (pk₀, lc₀, nds₀) tr₀ hpre
      dsimp only at inv₀
      rw [List.foldl_cons, List.foldl_nil] at hfold
      simp only [nodeStep] at hfold
      rcases hin : (List.range ncpu).foldl (coreStep fs ncpu m)
        (some (pk₀, lc₀, BitMap.with_capacity ncpu), tr₀) with ⟨osi, tri⟩
      cases osi with
      | none => rw [hin] at hfold; exact absurd hfold (by simp)
      | some sti =>
        obtain ⟨pk₁, lc₁, bm₁⟩ := sti
        rw [hin] at hfold
        have hst : st = (pk₁, lc₁, nds₀.insert (u16 m) ⟨u16 m, bm₁⟩) :=
          (Option.some.inj (congrArg Prod.fst hfold)).symm
        have htrr : tr = tri := (congrArg Prod.snd hfold).symm
        subst hst
        subst htrr
        have hinner := TInv_inner fs ncpu m (dpFull fs ncpu m) pk₀ lc₀
          (BitMap.with_capacity ncpu) tr₀ inv₀ ncpu (pk₁, lc₁, bm₁) tr hin
        dsimp only at hinner ⊢
        rw [dpFull_succ]
        exact hinner

/-- Every successful build satisfies the trace invariant on the full
discovered-pair list. -/
theorem init_TInv (fs : SysFs) (topo : Topology) (ncpu nnodes : Nat)
    (h₁ : read_online_from_sysfs fs.cpu_online = some ncpu)
    (h₂ : read_online_from_sysfs fs.node_online = some nnodes)
    (hs : Topology.init fs = some topo) :
    TInv fs (dpFull fs ncpu nnodes) topo.packages (identifyTrace fs) := by
  obtain ⟨ncpu', nnodes', tr, h₁', h₂', h₃⟩ := init_elim fs topo hs
  rw [h₁] at h₁'
  rw [h₂] at h₂'
  have e1 : ncpu = ncpu' := Option.some.inj h₁'
  have e2 : nnodes = nnodes' := Option.some.inj h₂'
  subst e1
  subst e2
  have hout := TInv_outer fs ncpu nnodes (topo.packages, topo.lcores, topo.nodes)
    tr h₃
  dsimp only at hout
  have hchar := initTraced_char fs ncpu nnodes topo.packages topo.lcores topo.nodes
    tr h₁ h₂ h₃
  have : identifyTrace fs = tr := by unfold identifyTrace; rw [hchar]
  rw [this]
  exact hout

theorem coreStep_fst_none_of_identify_none (fs : SysFs) (ncpu n : Nat)
    (pk : HMap Package) (lc : HMap LCore) (bm : BitMap) (tr : List Nat) (c : Nat)
    (hdir : fs.topology_dir n c = true)
    (hid : fs.identify_remote (u16 c) = none) :
    (coreStep fs ncpu n (some (pk, lc, bm), tr) c).1 = none := by
  simp only [coreStep, if_pos hdir]
  cases hr₁ : read_integer_from_sysfs (fs.physical_package_id n c) with
  | none => rfl
  | some v₁ =>
    cases hr₂ : read_integer_from_sysfs (fs.core_id_file n c) with
    | none => rfl
    | some v₂ =>
      rw [hid]

theorem nodeStep_inner_some (fs : SysFs) (ncpu : Nat) (pk : HMap Package)
    (lc : HMap LCore) (nds : HMap Node) (tr : List Nat) (n : Nat)
    (st' : TopoSt) (tr' : List Nat)
    (h : nodeStep fs ncpu (some (pk, lc, nds), tr) n = (some st', tr')) :
    ∃ sti tri, (List.range ncpu).foldl (coreStep fs ncpu n)
      (some (pk, lc, BitMap.with_capacity ncpu), tr) = (some sti, tri) := by
  simp only [nodeStep] at h
  rcases hin : (List.range ncpu).foldl (coreStep fs ncpu n)
    (some (pk, lc, BitMap.with_capacity ncpu), tr) with ⟨osi, tri⟩
  cases osi with
  | none => rw [hin] at h; exact absurd h (by simp)
  | some sti => exact ⟨sti, tri, by simp [hin]⟩

theorem foldl_range_reaches {σ : Type}
    (step : Option σ × List Nat → Nat → Option σ × List Nat)
    (hstep : ∀ tr a, step (none, tr) a = (none, tr))
    (k N : Nat) (hk : k < N) (init : Option σ × List Nat) (sF : σ) (tF : List Nat)
    (h : (List.range N).foldl step init = (some sF, tF)) :
    ∃ s t s' t', (List.range k).foldl step init = (some s, t) ∧
      step (some s, t) k = (some s', t') := by
  have hsplit : List.range N = List.range (k + 1) ++
      (List.range (N - (k + 1))).map (fun i => (k + 1) + i) := by
    rw [← List.range_add]
    congr 1
    omega
  rw [hsplit] at h
  obtain ⟨s1, t1, hpre⟩ := foldl_some_prefix step hstep _ _ _ _ _ h
  rw [List.range_succ, List.foldl_append] at hpre
  rcases hpre0 : (List.range k).foldl step init with ⟨os, tr0⟩
  cases os with
  | none =>
    rw [hpre0, foldl_stuck step hstep] at hpre
    exact absurd hpre (by simp)
  | some s0 =>
    rw [hpre0, List.foldl_cons, List.foldl_nil] at hpre
    exact ⟨s0, tr0, s1, t1, rfl, hpre⟩

/-- If the build succeeds, the identifier succeeded on every discovered pair
(the contrapositive of "a failed invocation aborts the build fatally"). -/
theorem init_identify_all (fs : SysFs) (topo : Topology) (ncpu nnodes : Nat)
    (h₁ : read_online_from_sysfs fs.cpu_online = some ncpu)
    (h₂ : read_online_from_sysfs fs.node_online = some nnodes)
    (hs : Topology.init fs = some topo) :
    ∀ n, n < nnodes → ∀ c, c < ncpu → fs.topology_dir n c = true →
      fs.identify_remote (u16 c) ≠ none := by
  intro n hn c hc hdir hid
  obtain ⟨ncpu', nnodes', tr, h₁', h₂', h₃⟩ := init_elim fs topo hs
  rw [h₁] at h₁'
  rw [h₂] at h₂'
  have e1 : ncpu = ncpu' := Option.some.inj h₁'
  have e2 : nnodes = nnodes' := Option.some.inj h₂'
  subst e1
  subst e2
  obtain ⟨s, t, s', t', hpre, hstep⟩ := foldl_range_reaches (nodeStep fs ncpu)
    (nodeStep_none fs ncpu) n nnodes hn _ _ _ h₃
  obtain ⟨pk, lc, nds⟩ := s
  obtain ⟨sti, tri, hinner⟩ := nodeStep_inner_some fs ncpu pk lc nds t n s' t' hstep
  obtain ⟨sc, tc, sc', tc', hcpre, hcstep⟩ := foldl_range_reaches
    (coreStep fs ncpu n) (coreStep_none fs ncpu n) c ncpu hc _ _ _ hinner
  obtain ⟨pkc, lcc, bmc⟩ := sc
  have hnone := coreStep_fst_none_of_identify_none fs ncpu n pkc lcc bmc tc c hdir hid
  rw [hcstep] at hnone
  exact absurd hnone (by simp)

/-- The first `(node, core)` pair of the enumeration whose package file reads
(truncated) as `pid`. -/
def firstPairOfPkg (fs : SysFs) (ncpu nnodes pid : Nat) : Option (Nat × Nat) :=
  (dpFull fs ncpu nnodes).find? (fun nc => decide (pkgIdAt fs nc.1 nc.2 = pid))

/-- C1 (amended): for every package in the built Topology, `cpu_info` equals
the identifier's result for the first logical core encountered for that
package; however the identifier is invoked once per discovered core — the
eagerly evaluated `or_insert` argument — not once per package, and a failure
of any of those invocations (not only the per-package first) makes the whole
build fail fatally. -/
theorem C1_hardware_info (fs : SysFs) (topo : Topology) (ncpu nnodes : Nat)
    (h₁ : read_online_from_sysfs fs.cpu_online = some ncpu)
    (h₂ : read_online_from_sysfs fs.node_online = some nnodes)
    (hs : Topology.init fs = some topo) :
    identifyTrace fs = (dpFull fs ncpu nnodes).map (fun nc => u16 nc.2) ∧
    (∀ n, n < nnodes → ∀ c, c < ncpu → fs.topology_dir n c = true →
      fs.identify_remote (u16 c) ≠ none) ∧
    (∀ pid p, topo.packages.get pid = some p →
      ∃ nc, firstPairOfPkg fs ncpu nnodes pid = some nc ∧
        fs.identify_remote (u16 nc.2) = some p.cpu_info) := by
  have hT := init_TInv fs topo ncpu nnodes h₁ h₂ hs
  refine ⟨hT.tr_eq, init_identify_all fs topo ncpu nnodes h₁ h₂ hs, ?_⟩
  intro pid p hget
  obtain ⟨nc, hfind, hinfo⟩ := hT.pk_first pid p hget
  exact ⟨nc, hfind, hinfo⟩

/-- Environment refuting C1 as stated: one node (`online` = `"0-0"`), two
cores (`online` = `"0-1"`), both discovered and both reporting package `0`;
identification succeeds for core 0 (the package's first core) and fails for
core 1. -/
def envC1 : SysFs where
  cpu_online := some "0-1".toList
  node_online := some "0-0".toList
  topology_dir := fun n c => n == 0 && (c == 0 || c == 1)
  physical_package_id := fun _ _ => some "0".toList
  core_id_file := fun _ c => some ((if c == 0 then "0" else "1").toList)
  identify_remote := fun c => if c == 0 then some ⟨7⟩ else none

/-- C1 counterexample: in `envC1` both discovered cores belong to package 0
and the identifier succeeds on the package's first core (core 0), so under
the claim — hardware info captured from the first core only, the identifier
never re-invoked for subsequent cores of the same package — the build would
succeed.  In fact the build invokes the identifier a second time, on core 1
of the same package (the trace is `[0, 1]`, not a single invocation), and
that invocation's failure aborts the whole build. -/
theorem C1_counterexample :
    pkgIdAt envC1 0 0 = 0 ∧ pkgIdAt envC1 0 1 = 0 ∧
    envC1.identify_remote (u16 0) ≠ none ∧
    identifyTrace envC1 = [0, 1] ∧
    Topology.init envC1 = none := by decide

/-! ### Claim C5 — the contract of `read_online_from_sysfs` -/

/-- The `"<start>-<end>"` pattern as worded by the spec: exactly two
dash-separated fields, each parsing as a non-negative integer.  (Stated from
the spec's words, for comparison against the source's behaviour.) -/
def matchesRangePattern (content : List Char) : Bool :=
  match splitDash (rustTrim content) with
  | [s0, s1] => (parseUsize s0).isSome && (parseUsize s1).isSome
  | _ => false

/-- C5 (amended): `read_online_from_sysfs` succeeds with `v` exactly when the
file is readable and its trimmed content splits on `-` into **at least** two
fields whose first two parse as integers `a ≤ b` (with `b - a + 1`
representable), returning `v = b - a + 1`; fields beyond the second are
ignored rather than rejected.  All other inputs — unreadable file, fewer
than two fields, unparseable field, or a reversed range — fail fatally. -/
theorem C5_read_range (file : Option (List Char)) (v : Nat) :
    read_online_from_sysfs file = some v ↔
      ∃ content s0 s1 rest a b, file = some content ∧
        splitDash (rustTrim content) = s0 :: s1 :: rest ∧
        parseUsize s0 = some a ∧ parseUsize s1 = some b ∧
        a ≤ b ∧ b - a + 1 < 2 ^ 64 ∧ v = b - a + 1 := by
  constructor
  · intro h
    cases file with
    | none => exact absurd h (by simp [read_online_from_sysfs])
    | some content =>
      simp only [read_online_from_sysfs] at h
      rcases hsplit : splitDash (rustTrim content) with _ | ⟨s0, rest1⟩
      · rw [hsplit] at h
        have h' : (none : Option Nat) = some v := h
        exact absurd h' (by simp)
      · rcases rest1 with _ | ⟨s1, rest⟩
        · rw [hsplit] at h
          have h' : (none : Option Nat) = some v := h
          exact absurd h' (by simp)
        · rw [hsplit] at h
          have hm : (match parseUsize s0, parseUsize s1 with
              | some a, some b =>
                if a ≤ b ∧ b - a + 1 < 2 ^ 64 then some (b - a + 1) else none
              | _, _ => none) = some v := h
          cases hp0 : parseUsize s0 with
          | none =>
            rw [hp0] at hm
            have h' : (none : Option Nat) = some v := hm
            exact absurd h' (by simp)
          | some a =>
            rw [hp0] at hm
            cases hp1 : parseUsize s1 with
            | none =>
              rw [hp1] at hm
              have h' : (none : Option Nat) = some v := hm
              exact absurd h' (by simp)
            | some b =>
              rw [hp1] at hm
              have h' : (if a ≤ b ∧ b - a + 1 < 2 ^ 64 then some (b - a + 1)
                  else none) = some v := hm
              by_cases hcond : a ≤ b ∧ b - a + 1 < 2 ^ 64
              · rw [if_pos hcond] at h'
                injection h' with h'
                exact ⟨content, s0, s1, rest, a, b, rfl, hsplit, hp0, hp1,
                  hcond.1, hcond.2, h'.symm⟩
              · rw [if_neg hcond] at h'
                exact absurd h' (by simp)
  · rintro ⟨content, s0, s1, rest, a, b, rfl, hsplit, hp0, hp1, hab, hlt, rfl⟩
    show read_online_from_sysfs (some content) = _
    simp only [read_online_from_sysfs]
    rw [hsplit]
    show (match parseUsize s0, parseUsize s1 with
        | some a, some b =>
          if a ≤ b ∧ b - a + 1 < 2 ^ 64 then some (b - a + 1) else none
        | _, _ => none) = _
    rw [hp0, hp1]
    show (if a ≤ b ∧ b - a + 1 < 2 ^ 64 then some (b - a + 1) else none) = _
    rw [if_pos ⟨hab, hlt⟩]

/-- C5 counterexample: the content `"1-2-3"` does not match the
`"<start>-<end>"` pattern (it has three fields), yet `read_online_from_sysfs`
does not fail — it returns `2 - 1 + 1 = 2`, silently ignoring the third
field, contradicting the claim that any non-matching content fails
fatally. -/
theorem C5_counterexample :
    matchesRangePattern ("1-2-3".toList) = false ∧
    read_online_from_sysfs (some ("1-2-3".toList)) = some 2 := by decide

/-! ### Claim C10 — `as u16` truncation of parsed sysfs integers -/

/-- C10: for a discovered `(node, core)` pair whose `physical_package_id` and
`core_id` files parse as `v₁` and `v₂` (of any magnitude), the build step
succeeds (provided only that identification succeeds) and stores
`v₁ % 2 ^ 16` and `v₂ % 2 ^ 16` as the `u16` identifiers: a value of 65536
or more is silently truncated by the `as u16` cast, not rejected and not a
fatal parse failure. -/
theorem C10_u16_truncation (fs : SysFs) (ncpu n : Nat) (pk : HMap Package)
    (lc : HMap LCore) (bm : BitMap) (tr : List Nat) (c v₁ v₂ : Nat)
    (hdir : fs.topology_dir n c = true)
    (h₁ : read_integer_from_sysfs (fs.physical_package_id n c) = some v₁)
    (h₂ : read_integer_from_sysfs (fs.core_id_file n c) = some v₂)
    (info : CpuInfo) (hid : fs.identify_remote (u16 c) = some info) :
    ∃ pk' lc' bm',
      coreStep fs ncpu n (some (pk, lc, bm), tr) c =
        (some (pk', lc', bm'), tr ++ [u16 c]) ∧
      lc'.get (u16 c) = some ⟨v₁ % 65536, u16 n, v₂ % 65536, u16 c⟩ := by
  simp only [coreStep, if_pos hdir]
  rw [h₁, h₂, hid]
  refine ⟨_, _, _, rfl, ?_⟩
  rw [HMap.get_insert_self]
  rfl

/-! ### Claim C9 — the process-wide singleton accessor -/

/-- Modelled from the spec: the `std::sync::LazyLock` cell behind `topology()`
— it holds the (possibly poisoned) build outcome after first forcing, plus a
ghost counter of how many times the initializer ran.  `LazyLock` serializes
concurrent first access, so every schedule of calls is equivalent to this
sequential model. -/
structure LazyState where
  cell : Option (Option Topology)
  builds : Nat
deriving DecidableEq

/-- The process state before any call. -/
def lazyStart : LazyState := ⟨none, 0⟩

/-- One call of `topology()`: return the cached outcome, or run
`Topology::init` exactly once and cache its outcome. -/
def topologyCall (fs : SysFs) (s : LazyState) : Option Topology × LazyState :=
  match s.cell with
  | some r => (r, s)
  | none => (Topology.init fs, ⟨some (Topology.init fs), s.builds + 1⟩)

/-- The results and final state of `k` sequential calls of `topology()`. -/
def topologyCalls (fs : SysFs) : Nat → List (Option Topology) × LazyState
  | 0 => ([], lazyStart)
  | k + 1 =>
    ((topologyCalls fs k).1 ++ [(topologyCall fs (topologyCalls fs k).2).1],
      (topologyCall fs (topologyCalls fs k).2).2)

/-- C9: when the build succeeds, every one of `k ≥ 1` sequential calls of the
global accessor returns the same (structurally identical) Topology, and the
build runs exactly once — construction is never re-triggered. -/
theorem C9_singleton (fs : SysFs) (t : Topology) (k : Nat)
    (hs : Topology.init fs = some t) (hk : 1 ≤ k) :
    (∀ r ∈ (topologyCalls fs k).1, r = some t) ∧
    (topologyCalls fs k).2.builds = 1 := by
  have key : ∀ m, (∀ r ∈ (topologyCalls fs (m + 1)).1, r = some t) ∧
      (topologyCalls fs (m + 1)).2 = ⟨some (some t), 1⟩ := by
    intro m
    induction m with
    | zero =>
      constructor
      · intro r hr
        have hr' : r ∈ ([] : List (Option Topology)) ++
            [(topologyCall fs lazyStart).1] := hr
        simp only [List.nil_append, List.mem_singleton] at hr'
        rw [hr']
        show (topologyCall fs lazyStart).1 = some t
        simp [topologyCall, lazyStart, hs]
      · show (topologyCall fs lazyStart).2 = _
        simp [topologyCall, lazyStart, hs]
    | succ m ih =>
      obtain ⟨hres, hst⟩ := ih
      constructor
      · intro r hr
        have hr' : r ∈ (topologyCalls fs (m + 1)).1 ++
            [(topologyCall fs (topologyCalls fs (m + 1)).2).1] := hr
        rcases List.mem_append.mp hr' with hr'' | hr''
        · exact hres r hr''
        · have he := List.mem_singleton.mp hr''
          rw [he, hst]
          rfl
      · show (topologyCall fs (topologyCalls fs (m + 1)).2).2 = _
        rw [hst]
        rfl
  obtain ⟨k', rfl⟩ : ∃ k', k = k' + 1 := ⟨k - 1, by omega⟩
  exact ⟨(key k').1, by rw [(key k').2]⟩

/-! ### Concrete environments and witnesses

`scenarioEnv` is the worked scenario of the spec: cpu online `"0-3"`, node
online `"0-1"`, topology directories for `(0,0) (0,1) (1,2) (1,3)`, package
ids `0,0,1,1` and core ids `0,1,0,1`. -/

def scenarioEnv : SysFs where
  cpu_online := some "0-3".toList
  node_online := some "0-1".toList
  topology_dir := fun n c =>
    (n == 0 && (c == 0 || c == 1)) || (n == 1 && (c == 2 || c == 3))
  physical_package_id := fun n _ => some ((if n == 0 then "0" else "1").toList)
  core_id_file := fun _ c => some ((if c == 0 || c == 2 then "0" else "1").toList)
  identify_remote := fun c => some ⟨100 + c⟩

/-- The topology the build produces on `scenarioEnv`. -/
def scenarioTopo : Topology := (Topology.init scenarioEnv).getD ⟨[], [], []⟩

/-- Environment with a memory-only node: one online cpu, two online nodes,
and a topology directory only under node 0 — node 1 ends up with an empty
member bit-set. -/
def envC8 : SysFs where
  cpu_online := some "0-0".toList
  node_online := some "0-1".toList
  topology_dir := fun n c => n == 0 && c == 0
  physical_package_id := fun _ _ => some "0".toList
  core_id_file := fun _ _ => some "0".toList
  identify_remote := fun _ => some ⟨1⟩

/-- The topology the build produces on `envC8`. -/
def envC8Topo : Topology := (Topology.init envC8).getD ⟨[], [], []⟩

/-- Environment whose per-core sysfs integers exceed `u16`:
`physical_package_id` reads 65536 and `core_id` reads 70000. -/
def envC10 : SysFs where
  cpu_online := some "0-0".toList
  node_online := some "0-0".toList
  topology_dir := fun n c => n == 0 && c == 0
  physical_package_id := fun _ _ => some "65536".toList
  core_id_file := fun _ _ => some "70000".toList
  identify_remote := fun _ => some ⟨3⟩

/-- Witness for C1 (amended): on the spec's scenario the build succeeds and
the identifier was invoked on all four discovered cores. -/
theorem C1_witness :
    identifyTrace scenarioEnv = (dpFull scenarioEnv 4 2).map (fun nc => u16 nc.2) :=
  (C1_hardware_info scenarioEnv scenarioTopo 4 2 (by decide) (by decide)
    (by decide)).1

/-- Witness for C2 on the spec's scenario: core 1 sits in node 0's bit-set
and resolves to a record labelled with node 0. -/
theorem C2_witness :
    ∃ nd lc, scenarioTopo.nodes.get 0 = some nd ∧ nd.lcores.test 1 = true ∧
      scenarioTopo.lcores.get 1 = some lc ∧ lc.node_id = nd.node_id := by
  obtain ⟨hnode, -⟩ := C2_membership_agreement scenarioEnv scenarioTopo 4 2
    (by decide) (by decide) (by decide) (by decide) (by decide) (by decide)
  have hget : scenarioTopo.nodes.get 0 =
      some ((scenarioTopo.nodes.get 0).getD ⟨0, ⟨[]⟩⟩) := by decide
  obtain ⟨lc, hlc, heq⟩ := hnode 0 _ hget 1 (by decide)
  exact ⟨_, lc, hget, by decide, hlc, heq⟩

/-- Witness for C3 on the spec's scenario at core 2. -/
theorem C3_witness :
    ∃ lc, scenarioTopo.lcores.get 2 = some lc ∧
      (∃ nd, scenarioTopo.node_of_lcore 2 = some nd ∧ nd.node_id = lc.node_id) ∧
      (∃ p, scenarioTopo.package_of_lcore 2 = some p ∧
        p.package_id = lc.package_id) := by
  have hget : scenarioTopo.lcores.get 2 =
      some ((scenarioTopo.lcores.get 2).getD ⟨0, 0, 0, 0⟩) := by decide
  obtain ⟨h1, h2⟩ := C3_cross_reference_consistency scenarioEnv scenarioTopo
    (by decide) 2 _ hget
  exact ⟨_, hget, h1, h2⟩

/-- Witness for C4 on the spec's scenario: both partitions sum to 4. -/
theorem C4_witness :
    HMap.mapSum (fun nd => nd.lcores.popcount) scenarioTopo.nodes =
      scenarioTopo.lcores.length ∧
    HMap.mapSum (fun p => p.lcores.popcount) scenarioTopo.packages =
      scenarioTopo.lcores.length :=
  C4_completeness scenarioEnv scenarioTopo 4 2 (by decide) (by decide)
    (by decide) (by decide) (by decide) (by decide)

/-- Witness for C5 (amended) at content `"0-3"`. -/
theorem C5_witness : read_online_from_sysfs (some ("0-3".toList)) = some 4 :=
  (C5_read_range (some ("0-3".toList)) 4).mpr
    ⟨"0-3".toList, "0".toList, "3".toList, [], 0, 3, rfl, by decide, by decide,
      by decide, by decide, by decide, rfl⟩

/-- Witness for C6 on the spec's scenario: id 4 = `num_cpus` and other
unknown ids all come back absent without failure. -/
theorem C6_witness :
    scenarioTopo.lcore 4 = none ∧ scenarioTopo.node_of_lcore 9 = none ∧
    scenarioTopo.lcores_of_node 7 = none := by
  obtain ⟨ha, hb, -, hd⟩ := C6_closed_queries scenarioEnv scenarioTopo 4
    (by decide) (by decide)
  exact ⟨hd, (ha 9 (by decide)).2.1, (hb 7 (by decide)).2⟩

/-- Witness for C7 on the spec's scenario: `(0, 2)` has no directory and core
2 is not in node 0's set; core id 5 is discovered nowhere and is absent from
the core map. -/
theorem C7_witness :
    scenarioTopo.lcores.get 5 = none ∧
    (∃ nd, scenarioTopo.nodes.get 0 = some nd ∧ nd.lcores.test 2 = false) := by
  obtain ⟨hpart1, hpart2⟩ := C7_sparse_tolerance scenarioEnv scenarioTopo 4 2
    (by decide) (by decide) (by decide) (by decide) (by decide) (by decide)
  constructor
  · exact (hpart2 5 (by decide)).1
  · have hget : scenarioTopo.nodes.get 0 =
        some ((scenarioTopo.nodes.get 0).getD ⟨0, ⟨[]⟩⟩) := by decide
    exact ⟨_, hget, hpart1 0 2 (by decide) _ hget⟩

/-- Witness for C8 on `envC8`: node 1 has no member cores yet its Node entry
exists with the right label. -/
theorem C8_witness : ∃ nd, envC8Topo.nodes.get 1 = some nd ∧ nd.node_id = 1 :=
  C8_nodes_complete envC8 envC8Topo 2 (by decide) (by decide) (by decide) 1
    (by decide)

/-- Witness for C9 on the spec's scenario with two sequential calls. -/
theorem C9_witness :
    (∀ r ∈ (topologyCalls scenarioEnv 2).1, r = some scenarioTopo) ∧
    (topologyCalls scenarioEnv 2).2.builds = 1 :=
  C9_singleton scenarioEnv scenarioTopo 2 (by decide) (by decide)

/-- Witness for C10 on `envC10`: package id 65536 is stored as 0 and core id
70000 as 4464, with no failure. -/
theorem C10_witness :
    ∃ pk' lc' bm',
      coreStep envC10 1 0 (some ([], [], BitMap.with_capacity 1), []) 0 =
        (some (pk', lc', bm'), [0]) ∧
      lc'.get 0 = some ⟨0, 0, 4464, 0⟩ := by
  obtain ⟨pk', lc', bm', hstep, hget⟩ := C10_u16_truncation envC10 1 0 [] []
    (BitMap.with_capacity 1) [] 0 65536 70000 (by decide) (by decide) (by decide)
    ⟨3⟩ (by decide)
  exact ⟨pk', lc', bm', hstep, hget⟩

end CpuTopology
